import Mathlib

/-!
Verification of the tsconfig-includes file-set enumeration engine.

Paths are modelled as lists of components (`List String`), mirroring Rust
`std::path::Path` component semantics.  An absolute path is represented with a
leading `""` component standing for the `RootDir` component; components of
real paths are nonempty strings, so `""` can occur only at the head of an
absolute path.  `Path::join` with a relative right-hand side is list append.
-/

namespace TsconfigIncludes

/-- Model of `Path::parent`: `None` for the empty path and for the filesystem
root `"/"` (list `[""]`), otherwise drop the last component. -/
def parent (p : List String) : Option (List String) :=
  if p = [] ∨ p = [""] then none else some p.dropLast

/-- Fuel-indexed helper for `ancestors`. -/
def ancestorsAux : Nat → List String → List (List String)
  | 0, p => [p]
  | n + 1, p =>
    match parent p with
    | none => [p]
    | some q => p :: ancestorsAux n q

/-- Model of `Path::ancestors`: the path itself followed by the chain of
parents, ending at `""` (relative path) or `"/"` (absolute path). -/
def ancestors (p : List String) : List (List String) :=
  ancestorsAux p.length p

/-- Model of `Path::strip_prefix` restricted to component prefixes: returns
the remaining components when `root` is a literal component prefix of `p`. -/
def stripLeading : List String → List String → Option (List String)
  | [], p => some p
  | _ :: _, [] => none
  | r :: rs, x :: xs => if r = x then stripLeading rs xs else none

/-- Rust `str::ends_with` (byte comparison coincides with character-list
comparison for UTF-8). -/
def strEndsWith (s pat : String) : Bool :=
  pat.data.isSuffixOf s.data

/-- Rust `str::starts_with`. -/
def strStartsWith (s pat : String) : Bool :=
  pat.data.isPrefixOf s.data

/-- Helper for `splitOnChar`, carrying the reversed current chunk. -/
def splitOnCharAux (c : Char) : List Char → List Char → List String
  | [], acc => [⟨acc.reverse⟩]
  | d :: ds, acc =>
    if d = c then ⟨acc.reverse⟩ :: splitOnCharAux c ds []
    else splitOnCharAux c ds (d :: acc)

/-- Split a string at every occurrence of a separator character (Rust
`str::split(c)`). -/
def splitOnChar (c : Char) (s : String) : List String :=
  splitOnCharAux c s.data []

/-- Keep the first occurrence of every element (the membership content of
collecting into a `HashSet` and iterating). -/
def dedupFirst {α : Type} [DecidableEq α] : List α → List α
  | [] => []
  | x :: xs => x :: (dedupFirst xs).filter (fun y => y ≠ x)

/-- `src/path.rs::is_glob`: a pattern is a glob when it contains `*`. -/
def is_glob (s : String) : Bool :=
  s.data.any fun c => c = '*'

/-- `src/path.rs::glob_file_extension`: `None` for globs ending in a bare
wildcard, otherwise the literal suffix after the last `*` (Rust
`glob.rsplit('*').next()`). -/
def glob_file_extension (glob : String) : Option String :=
  if strEndsWith glob "*" then none
  else some ((splitOnChar '*' glob).getLastD "")

/-- `src/path.rs::is_monorepo_file`: some ancestor of `file` ends with (has as
component suffix) `monorepo_root`. -/
def is_monorepo_file (monorepo_root file : List String) : Bool :=
  (ancestors file).any fun ancestor => decide (monorepo_root <:+ ancestor)

/-- `src/path.rs::StripPrefixError` (collapsing the nested std error). -/
inductive StripPrefixError where
  | strip (ancestor absolute_path : List String)
  | notFound (target absolute_path : List String)
deriving DecidableEq, Repr

/-- `src/path.rs::remove_relative_path_prefix_from_absolute_path`: find the
first (longest) ancestor of `absolute_path` that ends with `target_root` and
strip that ancestor from the front. -/
def remove_relative_path_prefix_from_absolute_path
    (target_root absolute_path : List String) :
    Except StripPrefixError (List String) :=
  match (ancestors absolute_path).find? (fun a => decide (target_root <:+ a)) with
  | some ancestor =>
    match stripLeading ancestor absolute_path with
    | some rel => .ok rel
    | none => .error (.strip ancestor absolute_path)
  | none => .error (.notFound target_root absolute_path)

/-- Modelled from the spec: `is_child_of_node_modules` is declared in
`src/path.rs` of a later revision and is missing from the sources; §4.4 step 7
says to drop paths under the dependency-vendoring directory (`node_modules`). -/
def is_child_of_node_modules (p : List String) : Bool :=
  p.any fun component => component = "node_modules"

/-- `CompilerOptions` from `src/estimate.rs` (serde defaults are `false`). -/
structure CompilerOptions where
  allow_js : Bool
  resolve_json_module : Bool
deriving DecidableEq, Repr

instance : Inhabited CompilerOptions := ⟨⟨false, false⟩⟩

/-- `TypescriptConfig` from `src/estimate.rs`.  The Rust field `include` is a
Lean keyword, hence the name `includes` here. -/
structure TypescriptConfig where
  compiler_options : CompilerOptions
  includes : List String
deriving DecidableEq, Repr

/-- `TypescriptConfig::whitelisted_file_extensions` from `src/estimate.rs`:
base suffixes, `.js`/`.jsx` under `allowJs`, suffixes extracted from globs,
all gated for `.json` by `resolveJsonModule`.  (Collecting the Rust `Vec`
into a `HashSet` only deduplicates, so list membership models set
membership.) -/
def TypescriptConfig.whitelisted_file_extensions (c : TypescriptConfig) :
    List String :=
  let whitelist := [".ts", ".tsx", ".d.ts"] ++
    (if c.compiler_options.allow_js then [".js", ".jsx"] else [])
  let glob_extensions := (c.includes.filter is_glob).filterMap glob_file_extension
  (whitelist ++ glob_extensions).filter fun extension =>
    if !(strEndsWith extension ".json") then true
    else c.compiler_options.resolve_json_module

/-- Render a component path as the string `Path::to_str` would produce. -/
def path_to_string (p : List String) : String :=
  String.intercalate "/" p

/-- The closure in `tsconfig_includes_estimate`: the whitelist check is a
suffix match against the full path string. -/
def is_whitelisted_file_extension (whitelist : List String)
    (p : List String) : Bool :=
  whitelist.any fun extension => strEndsWith (path_to_string p) extension

instance {ε α : Type} [DecidableEq ε] [DecidableEq α] :
    DecidableEq (Except ε α) := fun x y =>
  match x, y with
  | .ok a, .ok b =>
    if h : a = b then isTrue (by rw [h])
    else isFalse (by intro hh; cases hh; exact h rfl)
  | .ok _, .error _ => isFalse (by intro hh; cases hh)
  | .error _, .ok _ => isFalse (by intro hh; cases hh)
  | .error e, .error f =>
    if h : e = f then isTrue (by rw [h])
    else isFalse (by intro hh; cases hh; exact h rfl)

/-- Outcome of running a fallible Rust computation: a value, a returned
`Err`, or a process abort through `panic!`/`expect`. -/
inductive Outcome (ε α : Type) where
  | ok (a : α)
  | error (e : ε)
  | crash (msg : String)
deriving DecidableEq, Repr

/-- Model of `Iterator::collect::<Result<Vec<_>, _>>` over item outcomes:
the first non-`ok` item (in iteration order) aborts the collection. -/
def collectOutcomes {ε α : Type} : List (Outcome ε α) → Outcome ε (List α)
  | [] => .ok []
  | .error e :: _ => .error e
  | .crash m :: _ => .crash m
  | .ok a :: rest =>
    match collectOutcomes rest with
    | .ok l => .ok (a :: l)
    | .error e => .error e
    | .crash m => .crash m

/-- `src/io.rs::FromFileErrorKind` (underlying io/serde errors collapsed to a
message). -/
inductive FromFileErrorKind where
  | openFailed
  | readFailed
  | parseFailed (msg : String)
deriving DecidableEq, Repr

/-- `src/io.rs::FromFileError`. -/
structure FromFileError where
  path : List String
  kind : FromFileErrorKind
deriving DecidableEq, Repr

/-- `src/estimate.rs::BuildWalkerErrorKind`. -/
inductive BuildWalkerErrorKind where
  | io (e : FromFileError)
  | packageInMonorepoRoot (p : List String)
deriving DecidableEq, Repr

/-- A `globwalk::WalkError`, opaque to this crate; identified by a message. -/
structure WalkError where
  msg : String
deriving DecidableEq, Repr

/-- `src/estimate.rs::ErrorKind` (external `typescript_tools` errors are
opaque). -/
inductive EstimateErrorKind where
  | monorepoManifest
  | enumeratePackageManifests
  | packageInMonorepoRoot (p : List String)
  | fromFile (e : FromFileError)
  | buildWalker (e : BuildWalkerErrorKind)
  | walk (e : WalkError)
deriving DecidableEq, Repr

/-- `src/typescript_package.rs::PackageManifest` contents together with the
manifest location: `name` models `contents.name` and `path` models
`PackageManifest::path()`, the manifest file path relative to the monorepo
root. -/
structure PackageManifestM where
  name : String
  path : List String
deriving DecidableEq, Repr

/-- The external `typescript_tools` manifest graph, as consumed here:
`by_name` models `package_manifests_by_package_name` and `deps_exclusive`
models `transitive_internal_dependency_package_names_exclusive`. -/
structure ManifestGraph where
  by_name : String → Option PackageManifestM
  deps_exclusive : PackageManifestM → List PackageManifestM

/-- `src/typescript_package.rs::TypescriptPackage` (the `PackageIdentity`
of the design: scoped name plus tsconfig path, the deduplication key). -/
structure TypescriptPackage where
  scoped_package_name : String
  tsconfig_file : List String
deriving DecidableEq, Repr

/-- The ambient effects of Estimate-mode enumeration: reading and decoding a
`tsconfig.json` (`read_json_from_file::<TypescriptConfig>`), reading the
`name` field of a `package.json` (`read_json_from_file::<PackageManifest>`),
loading the external `MonorepoManifest` graph, and the `globwalk` walk of a
package directory with a pattern list (each entry a file path or a walk
error). -/
structure EstimateWorld where
  read_tsconfig : List String → Except FromFileError TypescriptConfig
  read_manifest_name : List String → Except FromFileError String
  load_manifest_graph : List String → Option ManifestGraph
  walk : List String → List String → List (Except WalkError (List String))

/-- Panic message of the `expect` on `strip_prefix` in
`tsconfig_includes_estimate`. -/
def strip_expect_msg (p : List String) : String :=
  "Should be able to strip monorepo-root prefix from path in monorepo: "
    ++ path_to_string p

/-- Panic message of the `expect`s on `Path::parent` in
`tsconfig_includes_by_package_name`. -/
def no_package_in_root_msg : String :=
  "No package should exist in the monorepo root"

/-- Panic message of the `expect` on the package-name lookup. -/
def should_belong_msg (tsconfig_file : List String) : String :=
  "tsconfig " ++ path_to_string tsconfig_file
    ++ " should belong to a package in the lerna monorepo"

/-- `src/estimate.rs::tsconfig_includes_estimate`: derive the package
directory (failing with `PackageInMonorepoRoot` when the tsconfig path has no
parent), load and decode the configuration, then filter the glob-walk entries
to monorepo files with whitelisted suffixes and rebase them onto the monorepo
root (an `expect`, so a failed rebase is a crash). -/
def tsconfig_includes_estimate (w : EstimateWorld)
    (monorepo_root tsconfig_file : List String) :
    Except BuildWalkerErrorKind (List (Outcome WalkError (List String))) :=
  match parent tsconfig_file with
  | none => .error (.packageInMonorepoRoot tsconfig_file)
  | some package_directory =>
    match w.read_tsconfig tsconfig_file with
    | .error e => .error (.io e)
    | .ok tsconfig =>
      let whitelisted := tsconfig.whitelisted_file_extensions
      let entries := w.walk package_directory tsconfig.includes
      .ok ((entries.filter fun me =>
          match me with
          | .ok p => is_monorepo_file monorepo_root p
              && is_whitelisted_file_extension whitelisted p
          | .error _ => true).map fun me =>
          match me with
          | .error e => .error e
          | .ok p =>
            match stripLeading monorepo_root p with
            | some rel => .ok rel
            | none => .crash (strip_expect_msg p))

/-- The per-package Estimate step of `tsconfig_includes_by_package_name`:
run `tsconfig_includes_estimate` (converting `BuildWalkerError` through its
`From` impl, which un-nests `PackageInMonorepoRoot`) and collect the walk
entries. -/
def estimate_files (w : EstimateWorld)
    (monorepo_root tsconfig_file : List String) :
    Outcome EstimateErrorKind (List (List String)) :=
  match tsconfig_includes_estimate w monorepo_root tsconfig_file with
  | .error (.packageInMonorepoRoot p) => .error (.packageInMonorepoRoot p)
  | .error e => .error (.buildWalker e)
  | .ok entries =>
    match collectOutcomes entries with
    | .ok files => .ok files
    | .error e => .error (.walk e)
    | .crash m => .crash m

/-- One request of the dependency-closure stage of
`src/estimate.rs::tsconfig_includes_by_package_name`: derive the sibling
`package.json` (an `expect`: no parent is a crash), read its `name`, look the
name up in the manifest graph (an `expect`: an unknown name is a crash), take
the exclusive transitive internal dependencies chained with the package
itself, and map each manifest to a `TypescriptPackage` (the `ok_or_else`
immediately followed by `expect` makes a rootless dependency a crash). -/
def per_request (w : EstimateWorld) (graph : ManifestGraph)
    (monorepo_root tsconfig_file : List String) :
    Outcome EstimateErrorKind (List TypescriptPackage) :=
  match parent tsconfig_file with
  | none => .crash no_package_in_root_msg
  | some dir =>
    let package_manifest_file := dir ++ ["package.json"]
    match w.read_manifest_name (monorepo_root ++ package_manifest_file) with
    | .error e => .error (.fromFile e)
    | .ok package_manifest_name =>
      match graph.by_name package_manifest_name with
      | none => .crash (should_belong_msg tsconfig_file)
      | some package_manifest =>
        collectOutcomes
          ((graph.deps_exclusive package_manifest ++ [package_manifest]).map
            fun m =>
              match parent m.path with
              | none => .crash no_package_in_root_msg
              | some d =>
                .ok ⟨m.name, d ++ ["tsconfig.json"]⟩)

/-- The dependency-closure stage over all requests: per-request closures are
flattened and collected into a `HashSet<TypescriptPackage>`.  Iteration order
of a `HashSet` is unspecified; the deduplicated list (first occurrences kept)
represents one iteration order of that set. -/
def resolve_packages_list (w : EstimateWorld) (graph : ManifestGraph)
    (monorepo_root : List String) (tsconfig_files : List (List String)) :
    Outcome EstimateErrorKind (List TypescriptPackage) :=
  match collectOutcomes (tsconfig_files.map (per_request w graph monorepo_root)) with
  | .ok ls => .ok (dedupFirst ls.flatten)
  | .error e => .error e
  | .crash m => .crash m

/-- The dependency-closure stage, viewed at the `HashSet` level: the same
computation with the collected `TypescriptPackage`s as a `Finset`. -/
def resolve_packages (w : EstimateWorld) (graph : ManifestGraph)
    (monorepo_root : List String) (tsconfig_files : List (List String)) :
    Outcome EstimateErrorKind (Finset TypescriptPackage) :=
  match resolve_packages_list w graph monorepo_root tsconfig_files with
  | .ok ls => .ok ls.toFinset
  | .error e => .error e
  | .crash m => .crash m

/-- Lexicographic strict comparison of character lists, by code point (for
UTF-8 encoded strings this coincides with the byte comparison Rust uses). -/
def charsLt : List Char → List Char → Bool
  | [], [] => false
  | [], _ :: _ => true
  | _ :: _, [] => false
  | c :: cs, d :: ds => if c = d then charsLt cs ds else decide (c < d)

/-- The strict `Ord` on Rust paths: lexicographic over components, each
component compared as a string. -/
def pathLt : List String → List String → Bool
  | [], [] => false
  | [], _ :: _ => true
  | _ :: _, [] => false
  | x :: xs, y :: ys => if x = y then pathLt xs ys else charsLt x.data y.data

/-- The reflexive closure of `pathLt`; the comparison `sort_unstable` sorts
by. -/
def pathLe (a b : List String) : Bool :=
  pathLt a b || decide (a = b)

/-- The sort order as a relation. -/
def pathOrder (a b : List String) : Prop :=
  pathLe a b = true

instance : DecidableRel pathOrder := fun a b =>
  instDecidableEqBool (pathLe a b) true

/-- `sort_unstable` on a list of root-relative paths (any correct sort of a
linear order is extensionally `sort_unstable`). -/
def sort_paths (l : List (List String)) : List (List String) :=
  l.insertionSort pathOrder

/-- `src/estimate.rs::tsconfig_includes_by_package_name`: resolve the package
closure, then enumerate every resolved package with
`tsconfig_includes_estimate` on `monorepo_root.join(tsconfig_file)`, sorting
each file list; the result is the `HashMap` from scoped package name to
sorted file list, as an association list. -/
def tsconfig_includes_by_package_name (w : EstimateWorld)
    (monorepo_root : List String) (tsconfig_files : List (List String)) :
    Outcome EstimateErrorKind (List (String × List (List String))) :=
  match w.load_manifest_graph monorepo_root with
  | none => .error .monorepoManifest
  | some graph =>
    match resolve_packages_list w graph monorepo_root tsconfig_files with
    | .error e => .error e
    | .crash m => .crash m
    | .ok packages =>
      collectOutcomes (packages.map fun package =>
        match estimate_files w monorepo_root
            (monorepo_root ++ package.tsconfig_file) with
        | .ok files => .ok (package.scoped_package_name, sort_paths files)
        | .error e => .error e
        | .crash m => .crash m)

/-! ## Exact mode (`src/exact.rs`) -/

/-- The captured output of the spawned `tsc` child process: exit code
(`None` when terminated by a signal) and raw stdout/stderr bytes. -/
structure ProcessOutput where
  status_code : Option Int
  stdout : List Nat
  stderr : List Nat
deriving DecidableEq, Repr

/-- `src/exact.rs::EnumerateErrorKind`. -/
inductive EnumerateErrorKind where
  | command
  | typescriptCompiler (command : String) (error : List Nat)
  | invalidUtf8
  | stripFailed (e : StripPrefixError)
  | packageInMonorepoRoot (p : List String)
  | canonicalizeFailed (p : List String)
deriving DecidableEq, Repr

/-- `src/exact.rs::ErrorKind`. -/
inductive ExactErrorKind where
  | monorepoManifest
  | enumeratePackageManifests
  | packageInMonorepoRoot (p : List String)
  | fromFile (e : FromFileError)
  | enumerate (e : EnumerateErrorKind)
deriving DecidableEq, Repr

/-- Ambient effects of Exact-mode enumeration: `std::fs::canonicalize` of the
monorepo root, spawning `tsc --listFilesOnly --project <dir>` (keyed by the
project directory argument; `none` models a spawn failure), UTF-8 decoding of
stdout bytes (`none` models `FromUtf8Error`), plus the manifest-reading
effects shared with Estimate mode. -/
structure ExactWorld where
  canonicalize : List String → Option (List String)
  run_tsc : List String → Option ProcessOutput
  utf8_decode : List Nat → Option String
  read_manifest_name : List String → Except FromFileError String
  load_manifest_graph : List String → Option ManifestGraph

/-- `src/typescript_package.rs::TypescriptConfigFile::package_directory`:
parent of `monorepo_root.join(tsconfig)`, failing with
`PackageInMonorepoRootError` when there is no parent. -/
def package_directory (tsconfig monorepo_root : List String) :
    Except (List String) (List String) :=
  let tsconfig_path := monorepo_root ++ tsconfig
  match parent tsconfig_path with
  | some d => .ok d
  | none => .error tsconfig_path

/-- The command string captured in `TypescriptCompiler` errors:
`format!("tsc --listFilesOnly --project {:?}", tsconfig)` where `tsconfig`
debug-prints as `TypescriptConfigFile("...")`. -/
def tsc_command_string (tsconfig : List String) : String :=
  "tsc --listFilesOnly --project TypescriptConfigFile(\""
    ++ path_to_string tsconfig ++ "\")"

/-- Model of `Iterator::collect::<Result<Vec<_>, _>>` over `Except` items:
the first error (in iteration order) aborts the collection. -/
def collectExcepts {eps alpha : Type} : List (Except eps alpha) → Except eps (List alpha)
  | [] => .ok []
  | .error e :: _ => .error e
  | .ok a :: rest =>
    match collectExcepts rest with
    | .ok l => .ok (a :: l)
    | .error e => .error e

/-- Rust `str::lines` followed by the `filter(|s| !s.is_empty())` of
`tsconfig_includes_exact`: split stdout at newlines, trim a trailing carriage
return from each line, drop empty lines. -/
def stdout_lines (stdout : String) : List String :=
  ((splitOnChar '\n' stdout).map fun l =>
    if strEndsWith l "\r" then String.mk l.data.dropLast else l).filter
    (fun s => s ≠ "")

/-- Model of `PathBuf::from` on one stdout line: leading `/` becomes the root
component `""`, empty components collapse. -/
def path_from_string (s : String) : List String :=
  if strStartsWith s "/" then
    "" :: (splitOnChar '/' s).filter (fun c => c ≠ "")
  else
    (splitOnChar '/' s).filter (fun c => c ≠ "")

/-- The filtering stage of `tsconfig_includes_exact`: parse each non-empty
stdout line as a path, keep monorepo files, drop `node_modules` children. -/
def exact_kept (canon_root : List String) (stdout : String) :
    List (List String) :=
  ((stdout_lines stdout).map path_from_string).filter
    (fun p => is_monorepo_file canon_root p) |>.filter
    (fun p => !is_child_of_node_modules p)

/-- `src/exact.rs::tsconfig_includes_exact`: canonicalize the root, derive
the package directory, spawn `tsc --listFilesOnly`; on a non-zero (or absent)
exit code fail with `TypescriptCompiler{command, stderr}`; otherwise decode
stdout, split into non-empty lines, keep monorepo files outside
`node_modules`, and rebase each onto the canonical root. -/
def tsconfig_includes_exact (w : ExactWorld)
    (monorepo_root tsconfig : List String) :
    Except EnumerateErrorKind (List (List String)) :=
  match w.canonicalize monorepo_root with
  | none => .error (.canonicalizeFailed monorepo_root)
  | some canon_root =>
    match package_directory tsconfig canon_root with
    | .error p => .error (.packageInMonorepoRoot p)
    | .ok project_dir =>
      match w.run_tsc project_dir with
      | none => .error .command
      | some child =>
        if child.status_code ≠ some 0 then
          .error (.typescriptCompiler (tsc_command_string tsconfig) child.stderr)
        else
          match w.utf8_decode child.stdout with
          | none => .error .invalidUtf8
          | some stdout =>
            match collectExcepts ((exact_kept canon_root stdout).map
                (remove_relative_path_prefix_from_absolute_path canon_root)) with
            | .ok files => .ok files
            | .error e => .error (.stripFailed e)

/-- One request of the closure stage of
`src/exact.rs::tsconfig_includes_by_package_name`: join the request onto the
root, derive the sibling `package.json` through the `TryFrom` chain (a
missing parent is a returned `PackageInMonorepoRoot` error here), read its
`name`, look it up (an `expect`: an unknown name is a crash), and map the
inclusive closure to `TypescriptPackage`s (a rootless dependency manifest is
a returned error). -/
def per_request_exact (w : ExactWorld) (graph : ManifestGraph)
    (monorepo_root tsconfig_file : List String) :
    Outcome ExactErrorKind (List TypescriptPackage) :=
  let tsconfig_path := monorepo_root ++ tsconfig_file
  match parent tsconfig_path with
  | none => .error (.packageInMonorepoRoot tsconfig_path)
  | some dir =>
    match w.read_manifest_name (dir ++ ["package.json"]) with
    | .error e => .error (.fromFile e)
    | .ok package_manifest_name =>
      match graph.by_name package_manifest_name with
      | none => .crash (should_belong_msg tsconfig_path)
      | some package_manifest =>
        collectOutcomes
          ((graph.deps_exclusive package_manifest ++ [package_manifest]).map
            fun m =>
              match parent m.path with
              | none => .error (.packageInMonorepoRoot m.path)
              | some d =>
                .ok ⟨m.name, d ++ ["tsconfig.json"]⟩)

/-- Exact-mode closure stage over all requests, at the `HashSet` iteration
level (first occurrences kept). -/
def resolve_packages_list_exact (w : ExactWorld) (graph : ManifestGraph)
    (monorepo_root : List String) (tsconfig_files : List (List String)) :
    Outcome ExactErrorKind (List TypescriptPackage) :=
  match collectOutcomes
      (tsconfig_files.map (per_request_exact w graph monorepo_root)) with
  | .ok ls => .ok (dedupFirst ls.flatten)
  | .error e => .error e
  | .crash m => .crash m

/-- Exact-mode closure stage at the set level. -/
def resolve_packages_exact (w : ExactWorld) (graph : ManifestGraph)
    (monorepo_root : List String) (tsconfig_files : List (List String)) :
    Outcome ExactErrorKind (Finset TypescriptPackage) :=
  match resolve_packages_list_exact w graph monorepo_root tsconfig_files with
  | .ok ls => .ok ls.toFinset
  | .error e => .error e
  | .crash m => .crash m

/-- `src/exact.rs::tsconfig_includes_by_package_name`: resolve the closure,
enumerate every resolved package with `tsconfig_includes_exact`, sort each
file list, and group by scoped package name. -/
def tsconfig_includes_by_package_name_exact (w : ExactWorld)
    (monorepo_root : List String) (tsconfig_files : List (List String)) :
    Outcome ExactErrorKind (List (String × List (List String))) :=
  match w.load_manifest_graph monorepo_root with
  | none => .error .monorepoManifest
  | some graph =>
    match resolve_packages_list_exact w graph monorepo_root tsconfig_files with
    | .error e => .error e
    | .crash m => .crash m
    | .ok packages =>
      collectOutcomes (packages.map fun package =>
        match tsconfig_includes_exact w monorepo_root package.tsconfig_file with
        | .ok files => .ok (package.scoped_package_name, sort_paths files)
        | .error e => .error (.enumerate e))

/-! ## JSON decoding of `TypescriptConfig` (`src/io.rs` + serde derives) -/

/-- A JSON value (numbers coarsened to integers; irrelevant here). -/
inductive Json where
  | null
  | bool (b : Bool)
  | num (n : Int)
  | str (s : String)
  | arr (elems : List Json)
  | obj (fields : List (String × Json))

/-- First binding of a key in a JSON object. -/
def jsonLookup (fields : List (String × Json)) (key : String) : Option Json :=
  (fields.find? fun f => f.1 = key).map fun f => f.2

/-- serde decode of a `bool` field. -/
def decodeBool : Json → Except String Bool
  | .bool b => .ok b
  | _ => .error "invalid type: expected a boolean"

/-- serde decode of a `String`. -/
def decodeString : Json → Except String String
  | .str s => .ok s
  | _ => .error "invalid type: expected a string"

/-- serde decode of a `Vec<String>`. -/
def decodeStringList : Json → Except String (List String)
  | .arr elems =>
    collectExcept (elems.map decodeString)
  | _ => .error "invalid type: expected a sequence"
where
  collectExcept : List (Except String String) → Except String (List String)
    | [] => .ok []
    | .error e :: _ => .error e
    | .ok s :: rest =>
      match collectExcept rest with
      | .ok l => .ok (s :: l)
      | .error e => .error e

/-- serde decode of a `#[serde(default)] bool` field (camelCase name): a
missing field is `false`, a present field of the wrong type is an error. -/
def decodeBoolField (fields : List (String × Json)) (key : String) :
    Except String Bool :=
  match jsonLookup fields key with
  | none => .ok false
  | some j => decodeBool j

/-- serde decode of `CompilerOptions` (unknown fields are ignored). -/
def decodeCompilerOptions : Json → Except String CompilerOptions
  | .obj fields =>
    (match decodeBoolField fields "allowJs" with
    | .error e => .error e
    | .ok allow_js =>
      match decodeBoolField fields "resolveJsonModule" with
      | .error e => .error e
      | .ok resolve_json_module => .ok ⟨allow_js, resolve_json_module⟩)
  | _ => .error "invalid type: expected an object"

/-- serde decode of `TypescriptConfig`: `compilerOptions` carries
`#[serde(default)]`, `include` does not, so a missing `include` is a decode
error. -/
def decodeTypescriptConfig : Json → Except String TypescriptConfig
  | .obj fields =>
    (match (match jsonLookup fields "compilerOptions" with
           | none => Except.ok (default : CompilerOptions)
           | some j => decodeCompilerOptions j) with
    | .error e => .error e
    | .ok compiler_options =>
      match jsonLookup fields "include" with
      | none => .error "missing field include"
      | some j =>
        match decodeStringList j with
        | .error e => .error e
        | .ok includes => .ok ⟨compiler_options, includes⟩)
  | _ => .error "invalid type: expected an object"

/-- `src/io.rs::read_json_from_file` specialised to `TypescriptConfig`: the
file contents arrive as a JSON value (or an open/read failure), and a serde
failure surfaces as `FromFileErrorKind::Parse`. -/
def read_typescript_config_from_file (path : List String)
    (contents : Except FromFileErrorKind Json) :
    Except FromFileError TypescriptConfig :=
  match contents with
  | .error k => .error ⟨path, k⟩
  | .ok j =>
    match decodeTypescriptConfig j with
    | .error m => .error ⟨path, .parseFailed m⟩
    | .ok c => .ok c

/-- Being strictly under a root directory: a nonempty relative remainder. -/
def is_proper_descendant (root p : List String) : Prop :=
  ∃ rest, rest ≠ [] ∧ p = root ++ rest

/-! ## Concrete sample data for witnesses and counterexamples -/

/-- A configuration with a JSON include glob and `resolveJsonModule` off. -/
def cfg_json_off : TypescriptConfig := ⟨⟨false, false⟩, ["src/**/*.json"]⟩

/-- The same configuration with `resolveJsonModule` on. -/
def cfg_json_on : TypescriptConfig := ⟨⟨false, true⟩, ["src/**/*.json"]⟩

/-- A bare wildcard configuration. -/
def cfg_star : TypescriptConfig := ⟨⟨false, false⟩, ["src/**/*"]⟩

/-- Sample package manifest for `foo`. -/
def sample_pm_foo : PackageManifestM := ⟨"foo", ["packages", "foo", "package.json"]⟩

/-- Sample package manifest for `bar` (depends on `foo`). -/
def sample_pm_bar : PackageManifestM := ⟨"bar", ["packages", "bar", "package.json"]⟩

/-- Sample manifest graph: `bar` depends on `foo`. -/
def sample_graph : ManifestGraph :=
  { by_name := fun n =>
      if n = "foo" then some sample_pm_foo
      else if n = "bar" then some sample_pm_bar
      else none
    deps_exclusive := fun m => if m.name = "bar" then [sample_pm_foo] else [] }

/-- A manifest graph that knows no package at all. -/
def empty_graph : ManifestGraph :=
  { by_name := fun _ => none
    deps_exclusive := fun _ => [] }

/-- Sample estimate world over the monorepo root `repo` with packages `foo`
and `bar`. -/
def sample_world : EstimateWorld :=
  { read_tsconfig := fun _ => .ok cfg_star
    read_manifest_name := fun p =>
      if p = ["repo", "packages", "foo", "package.json"] then .ok "foo"
      else if p = ["repo", "packages", "bar", "package.json"] then .ok "bar"
      else .error ⟨p, .openFailed⟩
    load_manifest_graph := fun _ => some sample_graph
    walk := fun dir _ =>
      if dir = ["repo", "packages", "foo"] then
        [.ok ["repo", "packages", "foo", "src", "lib.ts"],
         .ok ["repo", "packages", "foo", "src", "index.ts"]]
      else if dir = ["repo", "packages", "bar"] then
        [.ok ["repo", "packages", "bar", "src", "index.ts"]]
      else [] }

/-- Estimate world whose single package includes a JSON file, configuration
selectable. -/
def json_world (cfg : TypescriptConfig) : EstimateWorld :=
  { read_tsconfig := fun _ => .ok cfg
    read_manifest_name := fun p => .error ⟨p, .openFailed⟩
    load_manifest_graph := fun _ => none
    walk := fun dir _ =>
      if dir = ["repo", "pkg"] then
        [.ok ["repo", "pkg", "src", "a.json"], .ok ["repo", "pkg", "src", "b.ts"]]
      else [] }

/-- Estimate world just like `sample_world` but whose package-name reads give
a name the graph does not know. -/
def unknown_name_world : EstimateWorld :=
  { sample_world with
    read_manifest_name := fun p =>
      if p = ["repo", "packages", "foo", "package.json"] then .ok "ghost"
      else .error ⟨p, .openFailed⟩ }

/-- Stderr bytes captured in the failing exact-mode sample. -/
def sample_stderr : List Nat := [101, 114, 114]

/-- Exact world whose compiler exits with status 2. -/
def failing_exact_world : ExactWorld :=
  { canonicalize := fun p => some ("" :: p)
    run_tsc := fun _ => some ⟨some 2, [111, 117, 116], sample_stderr⟩
    utf8_decode := fun _ => some ""
    read_manifest_name := fun p => .error ⟨p, .openFailed⟩
    load_manifest_graph := fun _ => none }

/-- Exact world over the root `repo` with packages `foo` and `bar`: the
compiler succeeds and lists one absolute file per package. -/
def sample_exact_world : ExactWorld :=
  { canonicalize := fun p => if p = ["repo"] then some ["", "repo"] else none
    run_tsc := fun dir =>
      if dir = ["", "repo", "packages", "foo"] then some ⟨some 0, [0], []⟩
      else if dir = ["", "repo", "packages", "bar"] then some ⟨some 0, [1], []⟩
      else none
    utf8_decode := fun bytes =>
      if bytes = [0] then
        some "/repo/packages/foo/src/index.ts\n/repo/node_modules/x/y.d.ts\n"
      else if bytes = [1] then
        some "/repo/packages/bar/src/index.ts\n/usr/lib/node/skip.d.ts\n"
      else none
    read_manifest_name := fun p =>
      if p = ["repo", "packages", "foo", "package.json"] then .ok "foo"
      else if p = ["repo", "packages", "bar", "package.json"] then .ok "bar"
      else .error ⟨p, .openFailed⟩
    load_manifest_graph := fun _ => some sample_graph }

/-- Exact world just like `sample_exact_world` but whose package-name reads
give a name the graph does not know. -/
def unknown_name_exact_world : ExactWorld :=
  { sample_exact_world with
    read_manifest_name := fun p =>
      if p = ["repo", "packages", "foo", "package.json"] then .ok "ghost"
      else .error ⟨p, .openFailed⟩ }

/-- A JSON configuration document with no `include` member. -/
def json_no_include : Json :=
  .obj [("compilerOptions", .obj [("allowJs", .bool true)])]

/-- A JSON configuration document with an `include` member and no
`compilerOptions` member. -/
def json_only_include : Json :=
  .obj [("include", .arr [.str "src/**/*"])]

/-! ## Infrastructure lemmas -/

theorem collectOutcomes_map_ok {ε α : Type} (xs : List α) :
    collectOutcomes (xs.map .ok : List (Outcome ε α)) = .ok xs := by
  induction xs with
  | nil => rfl
  | cons x xs ih => simp [collectOutcomes, ih]

theorem collectOutcomes_eq_ok {ε α : Type} :
    ∀ {l : List (Outcome ε α)} {xs : List α},
      collectOutcomes l = .ok xs → l = xs.map .ok := by
  intro l
  induction l with
  | nil =>
    intro xs h
    cases h
    rfl
  | cons o rest ih =>
    intro xs h
    cases o with
    | error e => exact absurd h (by simp [collectOutcomes])
    | crash m => exact absurd h (by simp [collectOutcomes])
    | ok a =>
      simp only [collectOutcomes] at h
      cases hrest : collectOutcomes rest with
      | ok l' =>
        rw [hrest] at h
        cases h
        simp [ih hrest]
      | error e => rw [hrest] at h; cases h
      | crash m => rw [hrest] at h; cases h

theorem collectOutcomes_eq_ok_iff {ε α : Type} {l : List (Outcome ε α)}
    {xs : List α} : collectOutcomes l = .ok xs ↔ l = xs.map .ok :=
  ⟨collectOutcomes_eq_ok, fun h => h ▸ collectOutcomes_map_ok xs⟩

theorem collectOutcomes_append {ε α : Type} {l₁ l₂ : List (Outcome ε α)}
    {xs ys : List α} (h₁ : collectOutcomes l₁ = .ok xs)
    (h₂ : collectOutcomes l₂ = .ok ys) :
    collectOutcomes (l₁ ++ l₂) = .ok (xs ++ ys) := by
  rw [collectOutcomes_eq_ok_iff] at h₁ h₂ ⊢
  simp [h₁, h₂]

theorem mem_dedupFirst {α : Type} [DecidableEq α] {x : α} :
    ∀ {l : List α}, x ∈ dedupFirst l ↔ x ∈ l := by
  intro l
  induction l with
  | nil => simp [dedupFirst]
  | cons a l ih =>
    simp only [dedupFirst, List.mem_cons, List.mem_filter]
    constructor
    · rintro (rfl | ⟨hx, _⟩)
      · exact .inl rfl
      · exact .inr (ih.mp hx)
    · rintro (rfl | hx)
      · exact .inl rfl
      · by_cases hxa : x = a
        · exact .inl hxa
        · exact .inr ⟨ih.mpr hx, by simpa using hxa⟩

theorem nodup_dedupFirst {α : Type} [DecidableEq α] :
    ∀ (l : List α), (dedupFirst l).Nodup := by
  intro l
  induction l with
  | nil => simp [dedupFirst]
  | cons a l ih =>
    refine List.Nodup.cons ?_ (ih.filter _)
    intro hmem
    have := (List.mem_filter.mp hmem).2
    simp at this

theorem toFinset_dedupFirst {α : Type} [DecidableEq α] (l : List α) :
    (dedupFirst l).toFinset = l.toFinset := by
  ext x
  simp [List.mem_toFinset, mem_dedupFirst]

theorem stripLeading_append (r : List String) (p : List String) :
    stripLeading r (r ++ p) = some p := by
  induction r with
  | nil => rfl
  | cons a r ih => simp [stripLeading, ih]

theorem stripLeading_eq_some {r p q : List String}
    (h : stripLeading r p = some q) : p = r ++ q := by
  induction r generalizing p with
  | nil =>
    cases h
    rfl
  | cons a r ih =>
    cases p with
    | nil => cases h
    | cons x xs =>
      by_cases hax : a = x
      · subst hax
        simp only [stripLeading, if_pos rfl] at h
        simpa using ih h
      · simp [stripLeading, hax] at h

theorem parent_eq_some {p q : List String} (h : parent p = some q) :
    q = p.dropLast ∧ p ≠ [] := by
  unfold parent at h
  by_cases hp : p = [] ∨ p = [""]
  · simp [hp] at h
  · simp only [if_neg hp] at h
    cases h
    exact ⟨rfl, fun hnil => hp (.inl hnil)⟩

theorem mem_ancestorsAux_isPre {a : List String} :
    ∀ (n : Nat) (p : List String), a ∈ ancestorsAux n p → a <+: p := by
  intro n
  induction n with
  | zero =>
    intro p h
    simp only [ancestorsAux, List.mem_singleton] at h
    exact h ▸ List.prefix_refl a
  | succ n ih =>
    intro p h
    simp only [ancestorsAux] at h
    cases hq : parent p with
    | none =>
      rw [hq] at h
      simp only [List.mem_singleton] at h
      exact h ▸ List.prefix_refl a
    | some q =>
      rw [hq] at h
      rcases List.mem_cons.mp h with rfl | h
      · exact List.prefix_refl a
      · have hdrop := (parent_eq_some hq).1
        exact (ih q h).trans (hdrop ▸ List.dropLast_prefix p)

theorem mem_ancestors_isPre {a p : List String} (h : a ∈ ancestors p) :
    a <+: p :=
  mem_ancestorsAux_isPre _ p h

theorem self_mem_ancestors (p : List String) : p ∈ ancestors p := by
  unfold ancestors
  cases hl : p.length with
  | zero => simp [ancestorsAux]
  | succ n =>
    simp only [ancestorsAux]
    cases parent p <;> simp

/-! ## Absolute paths -/

/-- An absolute path: a leading `RootDir` component (modelled `""`) followed
by real (nonempty) components. -/
def IsAbs (p : List String) : Prop :=
  ∃ t, p = "" :: t ∧ "" ∉ t

/-- With canonical absolute paths, the only ancestor of `p` that can end with
`root` is `root` itself: the `RootDir` component occurs exactly once, at the
head. -/
theorem suffix_ancestor_eq {root anc p : List String} (hr : IsAbs root)
    (hp : IsAbs p) (hanc : anc <+: p) (hs : root <:+ anc) : anc = root := by
  obtain ⟨rt, rfl, hrt⟩ := hr
  obtain ⟨pt, rfl, hpt⟩ := hp
  obtain ⟨u, rfl⟩ := hs
  cases u with
  | nil => rfl
  | cons v u' =>
    exfalso
    obtain ⟨s, hseq⟩ := hanc
    have hv : v = "" := by
      have := congrArg (fun l => l.headD "x") hseq
      simpa using this
    subst hv
    have htl : u' ++ "" :: rt ++ s = pt := by
      have := congrArg List.tail hseq
      simpa using this
    apply hpt
    rw [← htl]
    simp

/-- On canonical absolute paths, a positive `is_monorepo_file` check means the
root is a literal component prefix, and rebasing strips exactly that root. -/
theorem remove_rel_of_abs {root p : List String} (hr : IsAbs root)
    (hp : IsAbs p) (hfile : is_monorepo_file root p = true) :
    ∃ rel, remove_relative_path_prefix_from_absolute_path root p = .ok rel ∧
      p = root ++ rel := by
  unfold is_monorepo_file at hfile
  rw [List.any_eq_true] at hfile
  obtain ⟨anc, hanc_mem, hanc_suf⟩ := hfile
  have hsome : ((ancestors p).find? fun a => decide (root <:+ a)).isSome :=
    List.find?_isSome.mpr ⟨anc, hanc_mem, hanc_suf⟩
  obtain ⟨a, ha⟩ := Option.isSome_iff_exists.mp hsome
  have hpred : root <:+ a := by
    have := List.find?_some ha
    simpa using this
  have hmem : a ∈ ancestors p := List.mem_of_find?_eq_some ha
  have haroot : a = root :=
    suffix_ancestor_eq hr hp (mem_ancestors_isPre hmem) hpred
  subst haroot
  obtain ⟨rel, hrel⟩ := mem_ancestors_isPre hmem
  refine ⟨rel, ?_, hrel.symm⟩
  unfold remove_relative_path_prefix_from_absolute_path
  rw [ha, ← hrel]
  simp [stripLeading_append]

/-! ## Order theory of the path comparison -/

theorem charsLt_self : ∀ (a : List Char), charsLt a a = false := by
  intro a
  induction a with
  | nil => rfl
  | cons c cs ih => simp [charsLt, ih]

theorem charsLt_asymm : ∀ {a b : List Char},
    charsLt a b = true → charsLt b a = true → False := by
  intro a
  induction a with
  | nil =>
    intro b h1 h2
    cases b with
    | nil => simp [charsLt] at h1
    | cons d ds => simp [charsLt] at h2
  | cons c cs ih =>
    intro b h1 h2
    cases b with
    | nil => simp [charsLt] at h1
    | cons d ds =>
      by_cases hcd : c = d
      · subst hcd
        simp only [charsLt, if_pos rfl] at h1 h2
        exact ih h1 h2
      · simp only [charsLt, if_neg hcd, if_neg (Ne.symm hcd),
          decide_eq_true_eq] at h1 h2
        exact absurd h2 (not_lt_of_gt h1)

theorem charsLt_trans : ∀ {a b c : List Char},
    charsLt a b = true → charsLt b c = true → charsLt a c = true := by
  intro a
  induction a with
  | nil =>
    intro b c h1 h2
    cases b with
    | nil => simp [charsLt] at h1
    | cons d ds =>
      cases c with
      | nil => simp [charsLt] at h2
      | cons e es => rfl
  | cons x xs ih =>
    intro b c h1 h2
    cases b with
    | nil => simp [charsLt] at h1
    | cons y ys =>
      cases c with
      | nil => simp [charsLt] at h2
      | cons z zs =>
        by_cases hxy : x = y <;> by_cases hyz : y = z
        · subst hxy; subst hyz
          simp only [charsLt, if_pos rfl] at h1 h2 ⊢
          exact ih h1 h2
        · subst hxy
          simp only [charsLt, if_pos rfl, if_neg hyz] at h1 h2 ⊢
          exact h2
        · subst hyz
          simp only [charsLt, if_neg hxy] at h1 ⊢
          exact h1
        · simp only [charsLt, if_neg hxy, if_neg hyz,
            decide_eq_true_eq] at h1 h2
          have hxz : x < z := lt_trans h1 h2
          simp [charsLt, ne_of_lt hxz, hxz]

theorem charsLt_connex : ∀ {a b : List Char},
    a ≠ b → charsLt a b = true ∨ charsLt b a = true := by
  intro a
  induction a with
  | nil =>
    intro b hne
    cases b with
    | nil => exact absurd rfl hne
    | cons d ds => exact .inl rfl
  | cons c cs ih =>
    intro b hne
    cases b with
    | nil => exact .inr rfl
    | cons d ds =>
      by_cases hcd : c = d
      · subst hcd
        have hne' : cs ≠ ds := fun h => hne (h ▸ rfl)
        simpa only [charsLt, if_pos rfl] using ih hne'
      · rcases lt_or_gt_of_ne hcd with h | h
        · left
          simp [charsLt, hcd, h]
        · right
          simp [charsLt, Ne.symm hcd, h]

theorem string_data_injective {s t : String} (h : s.data = t.data) : s = t := by
  cases s
  cases t
  cases h
  rfl

theorem pathLt_self : ∀ (a : List String), pathLt a a = false := by
  intro a
  induction a with
  | nil => rfl
  | cons x xs ih => simp [pathLt, ih]

theorem pathLt_asymm : ∀ {a b : List String},
    pathLt a b = true → pathLt b a = true → False := by
  intro a
  induction a with
  | nil =>
    intro b h1 h2
    cases b with
    | nil => simp [pathLt] at h1
    | cons y ys => simp [pathLt] at h2
  | cons x xs ih =>
    intro b h1 h2
    cases b with
    | nil => simp [pathLt] at h1
    | cons y ys =>
      by_cases hxy : x = y
      · subst hxy
        simp only [pathLt, if_pos rfl] at h1 h2
        exact ih h1 h2
      · simp only [pathLt, if_neg hxy, if_neg (Ne.symm hxy)] at h1 h2
        exact charsLt_asymm h1 h2

theorem pathLt_trans : ∀ {a b c : List String},
    pathLt a b = true → pathLt b c = true → pathLt a c = true := by
  intro a
  induction a with
  | nil =>
    intro b c h1 h2
    cases b with
    | nil => simp [pathLt] at h1
    | cons y ys =>
      cases c with
      | nil => simp [pathLt] at h2
      | cons z zs => rfl
  | cons x xs ih =>
    intro b c h1 h2
    cases b with
    | nil => simp [pathLt] at h1
    | cons y ys =>
      cases c with
      | nil => simp [pathLt] at h2
      | cons z zs =>
        by_cases hxy : x = y <;> by_cases hyz : y = z
        · subst hxy; subst hyz
          simp only [pathLt, if_pos rfl] at h1 h2 ⊢
          exact ih h1 h2
        · subst hxy
          simp only [pathLt, if_pos rfl, if_neg hyz] at h1 h2 ⊢
          exact h2
        · subst hyz
          simp only [pathLt, if_neg hxy] at h1 ⊢
          exact h1
        · simp only [pathLt, if_neg hxy, if_neg hyz] at h1 h2
          by_cases hxz : x = z
          · subst hxz
            exact absurd (charsLt_trans h1 h2) (by simp [charsLt_self])
          · simp only [pathLt, if_neg hxz]
            exact charsLt_trans h1 h2

theorem pathLt_connex : ∀ {a b : List String},
    a ≠ b → pathLt a b = true ∨ pathLt b a = true := by
  intro a
  induction a with
  | nil =>
    intro b hne
    cases b with
    | nil => exact absurd rfl hne
    | cons y ys => exact .inl rfl
  | cons x xs ih =>
    intro b hne
    cases b with
    | nil => exact .inr rfl
    | cons y ys =>
      by_cases hxy : x = y
      · subst hxy
        have hne' : xs ≠ ys := fun h => hne (h ▸ rfl)
        simpa only [pathLt, if_pos rfl] using ih hne'
      · have hdata : x.data ≠ y.data := fun h => hxy (string_data_injective h)
        rcases charsLt_connex hdata with h | h
        · left
          simp [pathLt, hxy, h]
        · right
          simp [pathLt, Ne.symm hxy, h]

instance : IsTotal (List String) pathOrder :=
  ⟨by
    intro a b
    by_cases hab : a = b
    · subst hab
      simp [pathOrder, pathLe]
    · rcases pathLt_connex hab with h | h
      · exact .inl (by simp [pathOrder, pathLe, h])
      · exact .inr (by simp [pathOrder, pathLe, h])⟩

instance : IsTrans (List String) pathOrder :=
  ⟨by
    intro a b c h1 h2
    simp only [pathOrder, pathLe, Bool.or_eq_true, decide_eq_true_eq] at h1 h2 ⊢
    rcases h1 with h1 | rfl
    · rcases h2 with h2 | rfl
      · exact .inl (pathLt_trans h1 h2)
      · exact .inl h1
    · exact h2⟩

theorem pathLt_of_pathOrder_ne {a b : List String}
    (h : pathOrder a b) (hne : a ≠ b) : pathLt a b = true := by
  simp only [pathOrder, pathLe, Bool.or_eq_true, decide_eq_true_eq] at h
  exact h.resolve_right hne

theorem sorted_sort_paths (l : List (List String)) :
    (sort_paths l).Sorted pathOrder :=
  List.sorted_insertionSort pathOrder l

theorem perm_sort_paths (l : List (List String)) :
    List.Perm (sort_paths l) l :=
  List.perm_insertionSort pathOrder l

/-- A sorted, duplicate-free list is strictly sorted. -/
theorem sort_paths_strict_of_nodup {l : List (List String)} (h : l.Nodup) :
    (sort_paths l).Pairwise (fun a b => pathLt a b = true) := by
  have hnd : (sort_paths l).Nodup := ((perm_sort_paths l).nodup_iff).mpr h
  have hs := sorted_sort_paths l
  exact (List.Pairwise.and hs hnd).imp
    (fun hab => pathLt_of_pathOrder_ne hab.1 hab.2)

theorem nodup_of_pairwise_pathLt {l : List (List String)}
    (h : l.Pairwise (fun a b => pathLt a b = true)) : l.Nodup :=
  h.imp fun hab heq => by
    subst heq
    simp [pathLt_self] at hab

/-! ## Inversion lemmas for the estimate pipeline -/

/-- The mapping of one manifest to its `TypescriptPackage` inside
`per_request`. -/
def manifest_to_package (m : PackageManifestM) :
    Outcome EstimateErrorKind TypescriptPackage :=
  match parent m.path with
  | none => .crash no_package_in_root_msg
  | some d => .ok ⟨m.name, d ++ ["tsconfig.json"]⟩

theorem per_request_eq_match (w : EstimateWorld) (graph : ManifestGraph)
    (monorepo_root req : List String) :
    per_request w graph monorepo_root req =
      match parent req with
      | none => .crash no_package_in_root_msg
      | some dir =>
        match w.read_manifest_name (monorepo_root ++ (dir ++ ["package.json"])) with
        | .error e => .error (.fromFile e)
        | .ok package_manifest_name =>
          match graph.by_name package_manifest_name with
          | none => .crash (should_belong_msg req)
          | some pm =>
            collectOutcomes
              ((graph.deps_exclusive pm ++ [pm]).map manifest_to_package) := by
  unfold per_request manifest_to_package
  rfl

theorem per_request_ok_mem {w : EstimateWorld} {graph : ManifestGraph}
    {monorepo_root req dir : List String} {l : List TypescriptPackage}
    {name : String} {pm : PackageManifestM} {d : List String}
    (h : per_request w graph monorepo_root req = .ok l)
    (hpar : parent req = some dir)
    (hname : w.read_manifest_name (monorepo_root ++ (dir ++ ["package.json"])) =
      .ok name)
    (hpm : graph.by_name name = some pm)
    (hd : parent pm.path = some d) :
    (⟨pm.name, d ++ ["tsconfig.json"]⟩ : TypescriptPackage) ∈ l := by
  rw [per_request_eq_match] at h
  simp only [hpar, hname, hpm] at h
  have hmap := collectOutcomes_eq_ok h
  have hmm : pm ∈ graph.deps_exclusive pm ++ [pm] := by simp
  have hin := List.mem_map_of_mem manifest_to_package hmm
  rw [hmap] at hin
  obtain ⟨x, hx, hxe⟩ := List.mem_map.mp hin
  have : manifest_to_package pm = .ok ⟨pm.name, d ++ ["tsconfig.json"]⟩ := by
    unfold manifest_to_package
    rw [hd]
  rw [this] at hxe
  cases hxe
  exact hx

theorem per_request_ok_elem {w : EstimateWorld} {graph : ManifestGraph}
    {monorepo_root req : List String} {l : List TypescriptPackage}
    {pkg : TypescriptPackage}
    (h : per_request w graph monorepo_root req = .ok l) (hx : pkg ∈ l) :
    ∃ (m : PackageManifestM) (d : List String), parent m.path = some d ∧
      pkg = (⟨m.name, d ++ ["tsconfig.json"]⟩ : TypescriptPackage) := by
  rw [per_request_eq_match] at h
  cases hpar : parent req with
  | none =>
    simp only [hpar] at h
    exact Outcome.noConfusion h
  | some dir =>
    simp only [hpar] at h
    cases hname : w.read_manifest_name (monorepo_root ++ (dir ++ ["package.json"])) with
    | error e =>
      simp only [hname] at h
      exact Outcome.noConfusion h
    | ok name =>
      simp only [hname] at h
      cases hpm : graph.by_name name with
      | none =>
        simp only [hpm] at h
        exact Outcome.noConfusion h
      | some pm =>
        simp only [hpm] at h
        have hmap := collectOutcomes_eq_ok h
        have hin : Outcome.ok pkg ∈
            (graph.deps_exclusive pm ++ [pm]).map manifest_to_package := by
          rw [hmap]
          exact List.mem_map_of_mem _ hx
        obtain ⟨m, hm, hme⟩ := List.mem_map.mp hin
        refine ⟨m, ?_⟩
        cases hpd : parent m.path with
        | none =>
          unfold manifest_to_package at hme
          rw [hpd] at hme
          cases hme
        | some d =>
          unfold manifest_to_package at hme
          rw [hpd] at hme
          cases hme
          exact ⟨d, rfl, rfl⟩

/-- The filter predicate of `tsconfig_includes_estimate`, named. -/
def walk_entry_keep (monorepo_root whitelist_exts : List String) :
    Except WalkError (List String) → Bool :=
  fun me =>
    match me with
    | .ok p => is_monorepo_file monorepo_root p
        && is_whitelisted_file_extension whitelist_exts p
    | .error _ => true

/-- The rebasing map of `tsconfig_includes_estimate`, named. -/
def walk_entry_rebase (monorepo_root : List String) :
    Except WalkError (List String) → Outcome WalkError (List String) :=
  fun me =>
    match me with
    | .error e => .error e
    | .ok p =>
      match stripLeading monorepo_root p with
      | some rel => .ok rel
      | none => .crash (strip_expect_msg p)

theorem tsconfig_includes_estimate_eq (w : EstimateWorld)
    (monorepo_root tsconfig_file : List String) :
    tsconfig_includes_estimate w monorepo_root tsconfig_file =
      match parent tsconfig_file with
      | none => .error (.packageInMonorepoRoot tsconfig_file)
      | some package_directory =>
        match w.read_tsconfig tsconfig_file with
        | .error e => .error (.io e)
        | .ok tsconfig =>
          .ok (((w.walk package_directory tsconfig.includes).filter
              (walk_entry_keep monorepo_root tsconfig.whitelisted_file_extensions)).map
              (walk_entry_rebase monorepo_root)) := by
  unfold tsconfig_includes_estimate walk_entry_keep walk_entry_rebase
  rfl

theorem estimate_files_root_error {w : EstimateWorld}
    {monorepo_root tsconfig_file : List String}
    (h : parent tsconfig_file = none) :
    estimate_files w monorepo_root tsconfig_file =
      .error (.packageInMonorepoRoot tsconfig_file) := by
  unfold estimate_files
  rw [tsconfig_includes_estimate_eq]
  simp only [h]

theorem estimate_files_mem {w : EstimateWorld}
    {monorepo_root tsconfig_file : List String}
    {files : List (List String)} {rel : List String}
    (h : estimate_files w monorepo_root tsconfig_file = .ok files)
    (hrel : rel ∈ files) :
    ∃ (package_directory : List String) (cfg : TypescriptConfig)
      (p : List String),
      parent tsconfig_file = some package_directory ∧
      w.read_tsconfig tsconfig_file = .ok cfg ∧
      Except.ok p ∈ w.walk package_directory cfg.includes ∧
      is_monorepo_file monorepo_root p = true ∧
      is_whitelisted_file_extension cfg.whitelisted_file_extensions p = true ∧
      stripLeading monorepo_root p = some rel := by
  unfold estimate_files at h
  rw [tsconfig_includes_estimate_eq] at h
  cases hpar : parent tsconfig_file with
  | none =>
    simp only [hpar] at h
    exact Outcome.noConfusion h
  | some package_directory =>
    simp only [hpar] at h
    cases hcfg : w.read_tsconfig tsconfig_file with
    | error e =>
      simp only [hcfg] at h
      exact Outcome.noConfusion h
    | ok cfg =>
      simp only [hcfg] at h
      refine ⟨package_directory, cfg, ?_⟩
      cases hc : collectOutcomes
          (((w.walk package_directory cfg.includes).filter
            (walk_entry_keep monorepo_root cfg.whitelisted_file_extensions)).map
            (walk_entry_rebase monorepo_root)) with
      | ok files' =>
        rw [hc] at h
        cases h
        have hmap := collectOutcomes_eq_ok hc
        have hin : Outcome.ok rel ∈
            ((w.walk package_directory cfg.includes).filter
              (walk_entry_keep monorepo_root cfg.whitelisted_file_extensions)).map
              (walk_entry_rebase monorepo_root) := by
          rw [hmap]
          exact List.mem_map_of_mem _ hrel
        obtain ⟨me, hme, hmee⟩ := List.mem_map.mp hin
        obtain ⟨hmw, hkeep⟩ := List.mem_filter.mp hme
        cases me with
        | error e =>
          simp only [walk_entry_rebase] at hmee
          exact Outcome.noConfusion hmee
        | ok p =>
          refine ⟨p, rfl, rfl, hmw, ?_⟩
          unfold walk_entry_keep at hkeep
          rw [Bool.and_eq_true] at hkeep
          refine ⟨hkeep.1, hkeep.2, ?_⟩
          simp only [walk_entry_rebase] at hmee
          cases hs : stripLeading monorepo_root p with
          | none =>
            simp only [hs] at hmee
            exact Outcome.noConfusion hmee
          | some rel' =>
            simp only [hs] at hmee
            cases hmee
            rfl
      | error e =>
        rw [hc] at h
        exact Outcome.noConfusion h
      | crash m =>
        rw [hc] at h
        exact Outcome.noConfusion h

theorem estimate_files_nodup {w : EstimateWorld}
    {monorepo_root tsconfig_file : List String} {files : List (List String)}
    (hw : ∀ dir pats, (w.walk dir pats).Nodup)
    (h : estimate_files w monorepo_root tsconfig_file = .ok files) :
    files.Nodup := by
  unfold estimate_files at h
  rw [tsconfig_includes_estimate_eq] at h
  cases hpar : parent tsconfig_file with
  | none =>
    simp only [hpar] at h
    exact Outcome.noConfusion h
  | some package_directory =>
    simp only [hpar] at h
    cases hcfg : w.read_tsconfig tsconfig_file with
    | error e =>
      simp only [hcfg] at h
      exact Outcome.noConfusion h
    | ok cfg =>
      simp only [hcfg] at h
      set filtered := (w.walk package_directory cfg.includes).filter
        (walk_entry_keep monorepo_root cfg.whitelisted_file_extensions) with hfil
      cases hc : collectOutcomes (filtered.map (walk_entry_rebase monorepo_root)) with
      | ok files' =>
        rw [hc] at h
        cases h
        have hmap := collectOutcomes_eq_ok hc
        have hnodup_fil : filtered.Nodup :=
          (hw package_directory cfg.includes).filter _
        have hinj : ∀ a ∈ filtered, ∀ b ∈ filtered,
            walk_entry_rebase monorepo_root a = walk_entry_rebase monorepo_root b →
            a = b := by
          intro a ha b hb hab
          have hha : walk_entry_rebase monorepo_root a ∈ files.map Outcome.ok := by
            rw [← hmap]
            exact List.mem_map_of_mem _ ha
          obtain ⟨r, _, hr⟩ := List.mem_map.mp hha
          cases a with
          | error e =>
            simp only [walk_entry_rebase] at hr
            exact Outcome.noConfusion hr
          | ok p =>
            cases b with
            | error e =>
              simp only [walk_entry_rebase] at hab hr
              rw [hab] at hr
              exact Outcome.noConfusion hr
            | ok q =>
              simp only [walk_entry_rebase] at hab hr
              cases hsp : stripLeading monorepo_root p with
              | none =>
                simp only [hsp] at hr
                exact Outcome.noConfusion hr
              | some rp =>
                simp only [hsp] at hab
                cases hsq : stripLeading monorepo_root q with
                | none =>
                  simp only [hsq] at hab
                  exact Outcome.noConfusion hab
                | some rq =>
                  simp only [hsq] at hab
                  cases hab
                  have hp := stripLeading_eq_some hsp
                  have hq := stripLeading_eq_some hsq
                  rw [hp, hq]
        have h2 : (filtered.map (walk_entry_rebase monorepo_root)).Nodup :=
          List.Nodup.map_on hinj hnodup_fil
        rw [hmap] at h2
        exact h2.of_map _
      | error e =>
        rw [hc] at h
        exact Outcome.noConfusion h
      | crash m =>
        rw [hc] at h
        exact Outcome.noConfusion h

theorem resolve_list_ok_per_ok {w : EstimateWorld} {graph : ManifestGraph}
    {monorepo_root req : List String} {reqs : List (List String)}
    {pkgs : List TypescriptPackage}
    (h : resolve_packages_list w graph monorepo_root reqs = .ok pkgs)
    (hreq : req ∈ reqs) :
    ∃ l, per_request w graph monorepo_root req = .ok l ∧ ∀ x ∈ l, x ∈ pkgs := by
  unfold resolve_packages_list at h
  cases hc : collectOutcomes (reqs.map (per_request w graph monorepo_root)) with
  | ok ls =>
    rw [hc] at h
    cases h
    have hmap := collectOutcomes_eq_ok hc
    have hin : per_request w graph monorepo_root req ∈
        (List.map .ok ls : List (Outcome EstimateErrorKind (List TypescriptPackage))) := by
      rw [← hmap]
      exact List.mem_map_of_mem _ hreq
    obtain ⟨l, hl, hle⟩ := List.mem_map.mp hin
    refine ⟨l, hle.symm, fun x hx => ?_⟩
    rw [mem_dedupFirst]
    exact List.mem_flatten.mpr ⟨l, hl, hx⟩
  | error e =>
    rw [hc] at h
    exact Outcome.noConfusion h
  | crash m =>
    rw [hc] at h
    exact Outcome.noConfusion h

theorem resolve_list_shape {w : EstimateWorld} {graph : ManifestGraph}
    {monorepo_root : List String} {reqs : List (List String)}
    {pkgs : List TypescriptPackage} {pkg : TypescriptPackage}
    (h : resolve_packages_list w graph monorepo_root reqs = .ok pkgs)
    (hp : pkg ∈ pkgs) :
    ∃ (d : List String), pkg.tsconfig_file = d ++ ["tsconfig.json"] := by
  unfold resolve_packages_list at h
  cases hc : collectOutcomes (reqs.map (per_request w graph monorepo_root)) with
  | ok ls =>
    rw [hc] at h
    cases h
    rw [mem_dedupFirst] at hp
    obtain ⟨l, hl, hx⟩ := List.mem_flatten.mp hp
    have hin : (Outcome.ok l : Outcome EstimateErrorKind (List TypescriptPackage)) ∈
        reqs.map (per_request w graph monorepo_root) := by
      rw [collectOutcomes_eq_ok hc]
      exact List.mem_map_of_mem _ hl
    obtain ⟨req, _, hre⟩ := List.mem_map.mp hin
    obtain ⟨m, d, _, hpkg⟩ := per_request_ok_elem hre hx
    exact ⟨d, by rw [hpkg]⟩
  | error e =>
    rw [hc] at h
    exact Outcome.noConfusion h
  | crash m =>
    rw [hc] at h
    exact Outcome.noConfusion h

theorem resolve_single {w : EstimateWorld} {graph : ManifestGraph}
    {monorepo_root req : List String} {s : Finset TypescriptPackage}
    (h : resolve_packages w graph monorepo_root [req] = .ok s) :
    ∃ l, per_request w graph monorepo_root req = .ok l ∧ s = l.toFinset := by
  unfold resolve_packages resolve_packages_list at h
  cases hp : per_request w graph monorepo_root req with
  | ok l =>
    refine ⟨l, rfl, ?_⟩
    simp only [List.map_cons, List.map_nil, hp, collectOutcomes, collectOutcomes] at h
    simp only [List.flatten, List.append_nil] at h
    rw [toFinset_dedupFirst] at h
    cases h
    rfl
  | error e =>
    simp only [List.map_cons, List.map_nil, hp, collectOutcomes] at h
    exact Outcome.noConfusion h
  | crash m =>
    simp only [List.map_cons, List.map_nil, hp, collectOutcomes] at h
    exact Outcome.noConfusion h

/-! ## Inversion lemmas for the exact pipeline -/

theorem collectExcepts_map_ok {eps alpha : Type} (xs : List alpha) :
    collectExcepts (xs.map .ok : List (Except eps alpha)) = .ok xs := by
  induction xs with
  | nil => rfl
  | cons x xs ih => simp [collectExcepts, ih]

theorem collectExcepts_eq_ok {eps alpha : Type} :
    ∀ {l : List (Except eps alpha)} {xs : List alpha},
      collectExcepts l = .ok xs → l = xs.map .ok := by
  intro l
  induction l with
  | nil =>
    intro xs h
    cases h
    rfl
  | cons o rest ih =>
    intro xs h
    cases o with
    | error e => exact absurd h (by simp [collectExcepts])
    | ok a =>
      simp only [collectExcepts] at h
      cases hrest : collectExcepts rest with
      | ok l' =>
        rw [hrest] at h
        cases h
        simp [ih hrest]
      | error e => rw [hrest] at h; cases h

/-- Either a parsed stdout line is absolute, or it has no root component at
all. -/
theorem path_from_string_abs_or_no_root (s : String) :
    IsAbs (path_from_string s) ∨ "" ∉ path_from_string s := by
  unfold path_from_string
  by_cases h : strStartsWith s "/"
  · left
    simp only [h, if_pos]
    exact ⟨_, rfl, by simp [List.mem_filter]⟩
  · right
    simp only [h]
    simp [List.mem_filter]

/-- A path that passes `is_monorepo_file` against an absolute root contains
the root component. -/
theorem mem_root_component_of_monorepo {root p : List String}
    (hr : IsAbs root) (h : is_monorepo_file root p = true) : "" ∈ p := by
  obtain ⟨rt, hre, _⟩ := hr
  unfold is_monorepo_file at h
  rw [List.any_eq_true] at h
  obtain ⟨anc, hanc, hsuf⟩ := h
  rw [decide_eq_true_eq] at hsuf
  obtain ⟨u, hu⟩ := hsuf
  have hmem : "" ∈ anc := by
    rw [← hu, hre]
    simp
  exact (mem_ancestors_isPre hanc).subset hmem

/-- Surviving the exact-mode filters implies a positive monorepo check. -/
theorem exact_kept_monorepo {canon_root : List String} {stdout : String}
    {p : List String} (hp : p ∈ exact_kept canon_root stdout) :
    is_monorepo_file canon_root p = true := by
  unfold exact_kept at hp
  exact (List.mem_filter.mp (List.mem_filter.mp hp).1).2

/-- Surviving the exact-mode filters against an absolute root implies the
path itself is absolute: relative parses contain no root component, so they
can never pass `is_monorepo_file`. -/
theorem exact_kept_abs {canon_root : List String} {stdout : String}
    {p : List String} (hcr : IsAbs canon_root)
    (hp : p ∈ exact_kept canon_root stdout) : IsAbs p := by
  have hmono := exact_kept_monorepo hp
  unfold exact_kept at hp
  obtain ⟨hp1, _⟩ := List.mem_filter.mp hp
  obtain ⟨hp0, _⟩ := List.mem_filter.mp hp1
  obtain ⟨line, _, hline⟩ := List.mem_map.mp hp0
  rcases path_from_string_abs_or_no_root line with h1 | h1
  · exact hline ▸ h1
  · exact absurd (mem_root_component_of_monorepo hcr hmono)
      (hline ▸ h1)

/-- Membership inversion for `tsconfig_includes_exact`. -/
theorem exact_files_mem {w : ExactWorld} {monorepo_root tsconfig : List String}
    {files : List (List String)} {rel : List String}
    (h : tsconfig_includes_exact w monorepo_root tsconfig = .ok files)
    (hrel : rel ∈ files) :
    ∃ (canon_root project_dir : List String) (child : ProcessOutput)
      (stdout : String) (p : List String),
      w.canonicalize monorepo_root = some canon_root ∧
      package_directory tsconfig canon_root = .ok project_dir ∧
      w.run_tsc project_dir = some child ∧
      w.utf8_decode child.stdout = some stdout ∧
      p ∈ (stdout_lines stdout).map path_from_string ∧
      is_monorepo_file canon_root p = true ∧
      is_child_of_node_modules p = false ∧
      remove_relative_path_prefix_from_absolute_path canon_root p = .ok rel := by
  unfold tsconfig_includes_exact at h
  cases hcanon : w.canonicalize monorepo_root with
  | none =>
    simp only [hcanon] at h
    exact Except.noConfusion h
  | some canon_root =>
    simp only [hcanon] at h
    cases hpd : package_directory tsconfig canon_root with
    | error p =>
      simp only [hpd] at h
      exact Except.noConfusion h
    | ok project_dir =>
      simp only [hpd] at h
      cases hrun : w.run_tsc project_dir with
      | none =>
        simp only [hrun] at h
        exact Except.noConfusion h
      | some child =>
        simp only [hrun] at h
        by_cases hst : child.status_code ≠ some 0
        · rw [if_pos hst] at h
          exact Except.noConfusion h
        · rw [if_neg hst] at h
          cases hdec : w.utf8_decode child.stdout with
          | none =>
            simp only [hdec] at h
            exact Except.noConfusion h
          | some stdout =>
            simp only [hdec] at h
            refine ⟨canon_root, project_dir, child, stdout, ?_⟩
            cases hc : collectExcepts ((exact_kept canon_root stdout).map
                (remove_relative_path_prefix_from_absolute_path canon_root)) with
            | ok files' =>
              rw [hc] at h
              cases h
              have hmap := collectExcepts_eq_ok hc
              have hin : Except.ok rel ∈ (exact_kept canon_root stdout).map
                  (remove_relative_path_prefix_from_absolute_path canon_root) := by
                rw [hmap]
                exact List.mem_map_of_mem _ hrel
              obtain ⟨p, hp, hpe⟩ := List.mem_map.mp hin
              unfold exact_kept at hp
              obtain ⟨hp1, hp2⟩ := List.mem_filter.mp hp
              obtain ⟨hp0, hp3⟩ := List.mem_filter.mp hp1
              refine ⟨p, rfl, hpd, hrun, hdec, hp0, hp3, ?_, hpe⟩
              simpa using hp2
            | error e =>
              rw [hc] at h
              exact Except.noConfusion h

/-- Duplicate-freeness of the exact enumeration, given distinct parsed stdout
paths and a canonical absolute root. -/
theorem exact_files_nodup {w : ExactWorld}
    {monorepo_root tsconfig : List String} {files : List (List String)}
    (habs : ∀ cr, w.canonicalize monorepo_root = some cr → IsAbs cr)
    (hnd : ∀ bytes s, w.utf8_decode bytes = some s →
      ((stdout_lines s).map path_from_string).Nodup)
    (h : tsconfig_includes_exact w monorepo_root tsconfig = .ok files) :
    files.Nodup := by
  unfold tsconfig_includes_exact at h
  cases hcanon : w.canonicalize monorepo_root with
  | none =>
    simp only [hcanon] at h
    exact Except.noConfusion h
  | some canon_root =>
    simp only [hcanon] at h
    cases hpd : package_directory tsconfig canon_root with
    | error p =>
      simp only [hpd] at h
      exact Except.noConfusion h
    | ok project_dir =>
      simp only [hpd] at h
      cases hrun : w.run_tsc project_dir with
      | none =>
        simp only [hrun] at h
        exact Except.noConfusion h
      | some child =>
        simp only [hrun] at h
        by_cases hst : child.status_code ≠ some 0
        · rw [if_pos hst] at h
          exact Except.noConfusion h
        · rw [if_neg hst] at h
          cases hdec : w.utf8_decode child.stdout with
          | none =>
            simp only [hdec] at h
            exact Except.noConfusion h
          | some stdout =>
            simp only [hdec] at h
            cases hc : collectExcepts ((exact_kept canon_root stdout).map
                (remove_relative_path_prefix_from_absolute_path canon_root)) with
            | ok files' =>
              rw [hc] at h
              cases h
              have hmap := collectExcepts_eq_ok hc
              have hker : (exact_kept canon_root stdout).Nodup := by
                unfold exact_kept
                exact ((hnd child.stdout stdout hdec).filter _).filter _
              have hcr : IsAbs canon_root := habs canon_root hcanon
              have hinj : ∀ a ∈ exact_kept canon_root stdout,
                  ∀ b ∈ exact_kept canon_root stdout,
                  remove_relative_path_prefix_from_absolute_path canon_root a =
                    remove_relative_path_prefix_from_absolute_path canon_root b →
                  a = b := by
                intro a ha b hb hab
                have hma : is_monorepo_file canon_root a = true :=
                  exact_kept_monorepo ha
                have hmb : is_monorepo_file canon_root b = true :=
                  exact_kept_monorepo hb
                obtain ⟨ra, hra, haeq⟩ :=
                  remove_rel_of_abs hcr (exact_kept_abs hcr ha) hma
                obtain ⟨rb, hrb, hbeq⟩ :=
                  remove_rel_of_abs hcr (exact_kept_abs hcr hb) hmb
                rw [hra, hrb] at hab
                cases hab
                rw [haeq, hbeq]
              have h2 : ((exact_kept canon_root stdout).map
                  (remove_relative_path_prefix_from_absolute_path canon_root)).Nodup :=
                List.Nodup.map_on hinj hker
              rw [hmap] at h2
              exact h2.of_map _
            | error e =>
              rw [hc] at h
              exact Except.noConfusion h

/-- The mapping of one manifest to its `TypescriptPackage` inside
`per_request_exact` (a missing parent is a returned error there). -/
def manifest_to_package_exact (m : PackageManifestM) :
    Outcome ExactErrorKind TypescriptPackage :=
  match parent m.path with
  | none => .error (.packageInMonorepoRoot m.path)
  | some d => .ok ⟨m.name, d ++ ["tsconfig.json"]⟩

theorem per_request_exact_eq_match (w : ExactWorld) (graph : ManifestGraph)
    (monorepo_root req : List String) :
    per_request_exact w graph monorepo_root req =
      match parent (monorepo_root ++ req) with
      | none => .error (.packageInMonorepoRoot (monorepo_root ++ req))
      | some dir =>
        match w.read_manifest_name (dir ++ ["package.json"]) with
        | .error e => .error (.fromFile e)
        | .ok package_manifest_name =>
          match graph.by_name package_manifest_name with
          | none => .crash (should_belong_msg (monorepo_root ++ req))
          | some pm =>
            collectOutcomes
              ((graph.deps_exclusive pm ++ [pm]).map manifest_to_package_exact) := by
  unfold per_request_exact manifest_to_package_exact
  rfl

theorem per_request_exact_ok_mem {w : ExactWorld} {graph : ManifestGraph}
    {monorepo_root req dir : List String} {l : List TypescriptPackage}
    {name : String} {pm : PackageManifestM} {d : List String}
    (h : per_request_exact w graph monorepo_root req = .ok l)
    (hpar : parent (monorepo_root ++ req) = some dir)
    (hname : w.read_manifest_name (dir ++ ["package.json"]) = .ok name)
    (hpm : graph.by_name name = some pm)
    (hd : parent pm.path = some d) :
    (⟨pm.name, d ++ ["tsconfig.json"]⟩ : TypescriptPackage) ∈ l := by
  rw [per_request_exact_eq_match] at h
  simp only [hpar, hname, hpm] at h
  have hmap := collectOutcomes_eq_ok h
  have hmm : pm ∈ graph.deps_exclusive pm ++ [pm] := by simp
  have hin := List.mem_map_of_mem manifest_to_package_exact hmm
  rw [hmap] at hin
  obtain ⟨x, hx, hxe⟩ := List.mem_map.mp hin
  have : manifest_to_package_exact pm = .ok ⟨pm.name, d ++ ["tsconfig.json"]⟩ := by
    unfold manifest_to_package_exact
    rw [hd]
  rw [this] at hxe
  cases hxe
  exact hx

theorem per_request_exact_ok_elem {w : ExactWorld} {graph : ManifestGraph}
    {monorepo_root req : List String} {l : List TypescriptPackage}
    {pkg : TypescriptPackage}
    (h : per_request_exact w graph monorepo_root req = .ok l) (hx : pkg ∈ l) :
    ∃ (m : PackageManifestM) (d : List String), parent m.path = some d ∧
      pkg = (⟨m.name, d ++ ["tsconfig.json"]⟩ : TypescriptPackage) := by
  rw [per_request_exact_eq_match] at h
  cases hpar : parent (monorepo_root ++ req) with
  | none =>
    simp only [hpar] at h
    exact Outcome.noConfusion h
  | some dir =>
    simp only [hpar] at h
    cases hname : w.read_manifest_name (dir ++ ["package.json"]) with
    | error e =>
      simp only [hname] at h
      exact Outcome.noConfusion h
    | ok name =>
      simp only [hname] at h
      cases hpm : graph.by_name name with
      | none =>
        simp only [hpm] at h
        exact Outcome.noConfusion h
      | some pm =>
        simp only [hpm] at h
        have hmap := collectOutcomes_eq_ok h
        have hin : Outcome.ok pkg ∈
            (graph.deps_exclusive pm ++ [pm]).map manifest_to_package_exact := by
          rw [hmap]
          exact List.mem_map_of_mem _ hx
        obtain ⟨m, hm, hme⟩ := List.mem_map.mp hin
        refine ⟨m, ?_⟩
        cases hpd : parent m.path with
        | none =>
          simp only [manifest_to_package_exact, hpd] at hme
          exact Outcome.noConfusion hme
        | some d =>
          simp only [manifest_to_package_exact, hpd] at hme
          cases hme
          exact ⟨d, rfl, rfl⟩

theorem resolve_list_exact_ok_per_ok {w : ExactWorld} {graph : ManifestGraph}
    {monorepo_root req : List String} {reqs : List (List String)}
    {pkgs : List TypescriptPackage}
    (h : resolve_packages_list_exact w graph monorepo_root reqs = .ok pkgs)
    (hreq : req ∈ reqs) :
    ∃ l, per_request_exact w graph monorepo_root req = .ok l ∧
      ∀ x ∈ l, x ∈ pkgs := by
  unfold resolve_packages_list_exact at h
  cases hc : collectOutcomes (reqs.map (per_request_exact w graph monorepo_root)) with
  | ok ls =>
    rw [hc] at h
    cases h
    have hmap := collectOutcomes_eq_ok hc
    have hin : per_request_exact w graph monorepo_root req ∈
        (List.map .ok ls : List (Outcome ExactErrorKind (List TypescriptPackage))) := by
      rw [← hmap]
      exact List.mem_map_of_mem _ hreq
    obtain ⟨l, hl, hle⟩ := List.mem_map.mp hin
    refine ⟨l, hle.symm, fun x hx => ?_⟩
    rw [mem_dedupFirst]
    exact List.mem_flatten.mpr ⟨l, hl, hx⟩
  | error e =>
    rw [hc] at h
    exact Outcome.noConfusion h
  | crash m =>
    rw [hc] at h
    exact Outcome.noConfusion h

/-- Inversion of the aggregated estimate pipeline: every entry of the result
map comes from a resolved package whose estimate enumeration succeeded. -/
theorem agg_mem {w : EstimateWorld} {monorepo_root : List String}
    {reqs : List (List String)} {result : List (String × List (List String))}
    {pair : String × List (List String)}
    (h : tsconfig_includes_by_package_name w monorepo_root reqs = .ok result)
    (hpair : pair ∈ result) :
    ∃ (graph : ManifestGraph) (pkgs : List TypescriptPackage)
      (pkg : TypescriptPackage) (files : List (List String)),
      w.load_manifest_graph monorepo_root = some graph ∧
      resolve_packages_list w graph monorepo_root reqs = .ok pkgs ∧
      pkg ∈ pkgs ∧
      estimate_files w monorepo_root (monorepo_root ++ pkg.tsconfig_file) =
        .ok files ∧
      pair = (pkg.scoped_package_name, sort_paths files) := by
  unfold tsconfig_includes_by_package_name at h
  cases hg : w.load_manifest_graph monorepo_root with
  | none =>
    simp only [hg] at h
    exact Outcome.noConfusion h
  | some graph =>
    simp only [hg] at h
    cases hres : resolve_packages_list w graph monorepo_root reqs with
    | error e =>
      rw [hres] at h
      exact Outcome.noConfusion h
    | crash m =>
      rw [hres] at h
      exact Outcome.noConfusion h
    | ok pkgs =>
      rw [hres] at h
      have hmap := collectOutcomes_eq_ok h
      have hin : Outcome.ok pair ∈ pkgs.map fun package =>
          match estimate_files w monorepo_root
              (monorepo_root ++ package.tsconfig_file) with
          | .ok files => .ok (package.scoped_package_name, sort_paths files)
          | .error e => .error e
          | .crash m => .crash m := by
        rw [hmap]
        exact List.mem_map_of_mem _ hpair
      obtain ⟨pkg, hpkg, hpe⟩ := List.mem_map.mp hin
      cases he : estimate_files w monorepo_root
          (monorepo_root ++ pkg.tsconfig_file) with
      | ok files =>
        rw [he] at hpe
        cases hpe
        exact ⟨graph, pkgs, pkg, files, rfl, hres, hpkg, he, rfl⟩
      | error e =>
        rw [he] at hpe
        exact Outcome.noConfusion hpe
      | crash m =>
        rw [he] at hpe
        exact Outcome.noConfusion hpe

/-- Inversion of the aggregated exact pipeline. -/
theorem agg_mem_exact {w : ExactWorld} {monorepo_root : List String}
    {reqs : List (List String)} {result : List (String × List (List String))}
    {pair : String × List (List String)}
    (h : tsconfig_includes_by_package_name_exact w monorepo_root reqs =
      .ok result)
    (hpair : pair ∈ result) :
    ∃ (graph : ManifestGraph) (pkgs : List TypescriptPackage)
      (pkg : TypescriptPackage) (files : List (List String)),
      w.load_manifest_graph monorepo_root = some graph ∧
      resolve_packages_list_exact w graph monorepo_root reqs = .ok pkgs ∧
      pkg ∈ pkgs ∧
      tsconfig_includes_exact w monorepo_root pkg.tsconfig_file = .ok files ∧
      pair = (pkg.scoped_package_name, sort_paths files) := by
  unfold tsconfig_includes_by_package_name_exact at h
  cases hg : w.load_manifest_graph monorepo_root with
  | none =>
    simp only [hg] at h
    exact Outcome.noConfusion h
  | some graph =>
    simp only [hg] at h
    cases hres : resolve_packages_list_exact w graph monorepo_root reqs with
    | error e =>
      rw [hres] at h
      exact Outcome.noConfusion h
    | crash m =>
      rw [hres] at h
      exact Outcome.noConfusion h
    | ok pkgs =>
      rw [hres] at h
      have hmap := collectOutcomes_eq_ok h
      have hin : Outcome.ok pair ∈ pkgs.map fun package =>
          (match tsconfig_includes_exact w monorepo_root package.tsconfig_file with
          | .ok files => .ok (package.scoped_package_name, sort_paths files)
          | .error e => .error (.enumerate e) :
            Outcome ExactErrorKind (String × List (List String))) := by
        rw [hmap]
        exact List.mem_map_of_mem _ hpair
      obtain ⟨pkg, hpkg, hpe⟩ := List.mem_map.mp hin
      cases he : tsconfig_includes_exact w monorepo_root pkg.tsconfig_file with
      | ok files =>
        rw [he] at hpe
        cases hpe
        exact ⟨graph, pkgs, pkg, files, rfl, hres, hpkg, he, rfl⟩
      | error e =>
        rw [he] at hpe
        exact Outcome.noConfusion hpe

theorem resolve_pair {w : EstimateWorld} {graph : ManifestGraph}
    {monorepo_root a b : List String} {la lb : List TypescriptPackage}
    (ha : per_request w graph monorepo_root a = .ok la)
    (hb : per_request w graph monorepo_root b = .ok lb) :
    resolve_packages w graph monorepo_root [a, b] =
      .ok (la.toFinset ∪ lb.toFinset) := by
  unfold resolve_packages resolve_packages_list
  simp only [List.map_cons, List.map_nil, ha, hb, collectOutcomes]
  simp only [List.flatten, List.append_nil]
  rw [toFinset_dedupFirst, List.toFinset_append]

theorem glob_file_extension_eq_some {pat ext : String} :
    glob_file_extension pat = some ext ↔
      strEndsWith pat "*" = false ∧ (splitOnChar '*' pat).getLastD "" = ext := by
  unfold glob_file_extension
  by_cases h : strEndsWith pat "*" <;> simp [h]

theorem parent_append_tsconfig (root d : List String) :
    parent (root ++ (d ++ ["tsconfig.json"])) = some (root ++ d) := by
  unfold parent
  have h1 : root ++ (d ++ ["tsconfig.json"]) ≠ [] := by simp
  have h2 : root ++ (d ++ ["tsconfig.json"]) ≠ [""] := by
    intro h
    have hlen := congrArg List.length h
    simp only [List.length_append, List.length_cons, List.length_nil] at hlen
    have hr : root = [] := List.eq_nil_of_length_eq_zero (by omega)
    have hd : d = [] := List.eq_nil_of_length_eq_zero (by omega)
    subst hr
    subst hd
    simp at h
  rw [if_neg (by simp [h1, h2])]
  rw [← List.append_assoc, List.dropLast_concat]

/-! ## Claim theorems -/

/-- C8: whenever a requested configuration path has no parent package
directory (its directory would be the monorepo root), Estimate-mode
enumeration returns the `PackageInMonorepoRoot` error (and hence never
succeeds), and Exact-mode enumeration does the same when the root-joined
tsconfig path has no parent. -/
theorem C8_package_at_monorepo_root :
    (∀ (w : EstimateWorld) (monorepo_root tsconfig_file : List String),
      parent tsconfig_file = none →
      estimate_files w monorepo_root tsconfig_file =
        .error (.packageInMonorepoRoot tsconfig_file)) ∧
    (∀ (w : ExactWorld) (monorepo_root tsconfig canon_root : List String),
      w.canonicalize monorepo_root = some canon_root →
      parent (canon_root ++ tsconfig) = none →
      tsconfig_includes_exact w monorepo_root tsconfig =
        .error (.packageInMonorepoRoot (canon_root ++ tsconfig))) := by
  constructor
  · intro w monorepo_root tsconfig_file h
    exact estimate_files_root_error h
  · intro w monorepo_root tsconfig canon_root hcanon hpar
    unfold tsconfig_includes_exact package_directory
    simp only [hcanon, hpar]

/-- C8 witness: a rootless configuration path at a concrete input. -/
theorem C8_witness :
    estimate_files (json_world cfg_star) ["repo"] [] =
        .error (.packageInMonorepoRoot []) ∧
      tsconfig_includes_exact failing_exact_world [] [] =
        .error (.packageInMonorepoRoot [""]) :=
  ⟨C8_package_at_monorepo_root.1 (json_world cfg_star) ["repo"] [] (by rfl),
   C8_package_at_monorepo_root.2 failing_exact_world [] [] [""] (by rfl) (by rfl)⟩

/-- C10: decoding a configuration object without an `include` member fails
with a parse error (whatever the `compilerOptions` member holds), while a
missing `compilerOptions` member defaults to
`allowJs = false, resolveJsonModule = false`. -/
theorem C10_missing_include_is_parse_error :
    (∀ (path : List String) (fields : List (String × Json)),
      jsonLookup fields "include" = none →
      ∃ msg, read_typescript_config_from_file path (.ok (.obj fields)) =
        .error ⟨path, .parseFailed msg⟩) ∧
    (∀ (path : List String) (fields : List (String × Json)) (j : Json)
       (includes : List String),
      jsonLookup fields "compilerOptions" = none →
      jsonLookup fields "include" = some j →
      decodeStringList j = .ok includes →
      read_typescript_config_from_file path (.ok (.obj fields)) =
        .ok ⟨⟨false, false⟩, includes⟩) := by
  constructor
  · intro path fields hinc
    unfold read_typescript_config_from_file decodeTypescriptConfig
    cases hco : jsonLookup fields "compilerOptions" with
    | none =>
      simp only [hco, hinc]
      exact ⟨"missing field include", rfl⟩
    | some j =>
      simp only [hco, hinc]
      cases hdec : decodeCompilerOptions j with
      | error m =>
        simp only [hdec]
        exact ⟨m, rfl⟩
      | ok co =>
        simp only [hdec]
        exact ⟨"missing field include", rfl⟩
  · intro path fields j includes hco hinc hdec
    unfold read_typescript_config_from_file decodeTypescriptConfig
    simp only [hco, hinc, hdec]
    rfl

/-- C10 witness: concrete documents with and without `include`. -/
theorem C10_witness :
    (∃ msg, read_typescript_config_from_file ["repo", "pkg", "tsconfig.json"]
        (.ok json_no_include) =
      .error ⟨["repo", "pkg", "tsconfig.json"], .parseFailed msg⟩) ∧
    read_typescript_config_from_file ["repo", "pkg", "tsconfig.json"]
        (.ok json_only_include) = .ok ⟨⟨false, false⟩, ["src/**/*"]⟩ :=
  ⟨C10_missing_include_is_parse_error.1 ["repo", "pkg", "tsconfig.json"] _ (by rfl),
   C10_missing_include_is_parse_error.2 ["repo", "pkg", "tsconfig.json"] _
     (.arr [.str "src/**/*"]) ["src/**/*"] (by rfl) (by rfl) (by rfl)⟩

/-- C7: in Exact mode a non-success compiler exit status makes enumeration
fail with `TypescriptCompiler{command, stderr}`, and the result is
independent of whatever the process wrote to stdout. -/
theorem C7_compiler_invocation_error
    (w : ExactWorld) (monorepo_root tsconfig canon_root project_dir : List String)
    (child : ProcessOutput)
    (hcanon : w.canonicalize monorepo_root = some canon_root)
    (hpd : package_directory tsconfig canon_root = .ok project_dir)
    (hrun : w.run_tsc project_dir = some child)
    (hst : child.status_code ≠ some 0) :
    tsconfig_includes_exact w monorepo_root tsconfig =
      .error (.typescriptCompiler (tsc_command_string tsconfig) child.stderr) ∧
    ∀ alt_stdout : List Nat,
      tsconfig_includes_exact
        { w with run_tsc := fun _ => some { child with stdout := alt_stdout } }
        monorepo_root tsconfig =
      .error (.typescriptCompiler (tsc_command_string tsconfig) child.stderr) := by
  constructor
  · unfold tsconfig_includes_exact
    simp only [hcanon, hpd, hrun]
    rw [if_pos hst]
  · intro alt_stdout
    unfold tsconfig_includes_exact
    simp only [hcanon, hpd]
    show (if child.status_code ≠ some 0 then _ else _) = _
    rw [if_pos hst]

/-- C9 counterexample: with a registered request whose manifest declares a
name absent from the manifest index, the closure stage aborts with the
`expect` panic — no error value of any kind is returned to the caller, so
the claimed `UnknownPackageError` result does not exist. -/
theorem C9_counterexample :
    resolve_packages unknown_name_world sample_graph ["repo"]
        [["packages", "foo", "tsconfig.json"]] =
      .crash (should_belong_msg ["packages", "foo", "tsconfig.json"]) ∧
    ¬ ∃ e, resolve_packages unknown_name_world sample_graph ["repo"]
        [["packages", "foo", "tsconfig.json"]] = .error e := by
  constructor
  · rfl
  · rintro ⟨e, he⟩
    rw [(by rfl : resolve_packages unknown_name_world sample_graph ["repo"]
        [["packages", "foo", "tsconfig.json"]] =
      .crash (should_belong_msg ["packages", "foo", "tsconfig.json"]))] at he
    exact Outcome.noConfusion he

/-- C9 amended: when a requested configuration path's co-located manifest
declares a name absent from the manifest index, the dependency-closure stage
panics through the `expect` on the lookup (message naming the tsconfig),
aborting the enumeration; no error value is surfaced.  Both the Estimate and
the Exact closure builders behave this way. -/
theorem C9_amended :
    (∀ (w : EstimateWorld) (graph : ManifestGraph)
       (monorepo_root req dir : List String) (name : String),
      parent req = some dir →
      w.read_manifest_name (monorepo_root ++ (dir ++ ["package.json"])) = .ok name →
      graph.by_name name = none →
      per_request w graph monorepo_root req = .crash (should_belong_msg req) ∧
      resolve_packages w graph monorepo_root [req] =
        .crash (should_belong_msg req)) ∧
    (∀ (w : ExactWorld) (graph : ManifestGraph)
       (monorepo_root req dir : List String) (name : String),
      parent (monorepo_root ++ req) = some dir →
      w.read_manifest_name (dir ++ ["package.json"]) = .ok name →
      graph.by_name name = none →
      per_request_exact w graph monorepo_root req =
        .crash (should_belong_msg (monorepo_root ++ req))) := by
  constructor
  · intro w graph monorepo_root req dir name hpar hname hpm
    have hper : per_request w graph monorepo_root req =
        .crash (should_belong_msg req) := by
      rw [per_request_eq_match]
      simp only [hpar, hname, hpm]
    refine ⟨hper, ?_⟩
    unfold resolve_packages resolve_packages_list
    simp only [List.map_cons, List.map_nil, hper, collectOutcomes]
  · intro w graph monorepo_root req dir name hpar hname hpm
    rw [per_request_exact_eq_match]
    simp only [hpar, hname, hpm]

/-- C9 amended witness: the crash at the concrete unknown-name worlds. -/
theorem C9_amended_witness :
    per_request unknown_name_world sample_graph ["repo"]
        ["packages", "foo", "tsconfig.json"] =
      .crash (should_belong_msg ["packages", "foo", "tsconfig.json"]) ∧
    per_request_exact unknown_name_exact_world sample_graph ["repo"]
        ["packages", "foo", "tsconfig.json"] =
      .crash (should_belong_msg
        (["repo"] ++ ["packages", "foo", "tsconfig.json"])) :=
  ⟨(C9_amended.1 unknown_name_world sample_graph ["repo"]
      ["packages", "foo", "tsconfig.json"] ["packages", "foo"] "ghost"
      (by rfl) (by rfl) (by rfl)).1,
   C9_amended.2 unknown_name_exact_world sample_graph ["repo"]
      ["packages", "foo", "tsconfig.json"] ["repo", "packages", "foo"] "ghost"
      (by rfl) (by rfl) (by rfl)⟩

/-- C1: under either mode, every path in any value of the returned mapping
is a proper descendant of the monorepo root — never outside it and never
the root itself.  Estimate mode assumes the glob walker's guarantee that it
yields entries strictly below the walked directory; Exact mode assumes the
canonical root is absolute and that the compiler lists files other than the
root directory itself. -/
theorem C1_root_containment :
    (∀ (w : EstimateWorld) (monorepo_root : List String)
       (reqs : List (List String))
       (result : List (String × List (List String)))
       (pair : String × List (List String)) (rel : List String),
      (∀ dir pats e, Except.ok e ∈ w.walk dir pats →
        ∃ rest, rest ≠ [] ∧ e = dir ++ rest) →
      tsconfig_includes_by_package_name w monorepo_root reqs = .ok result →
      pair ∈ result → rel ∈ pair.2 →
      rel ≠ [] ∧ is_proper_descendant monorepo_root (monorepo_root ++ rel)) ∧
    (∀ (w : ExactWorld) (monorepo_root canon_root : List String)
       (reqs : List (List String))
       (result : List (String × List (List String)))
       (pair : String × List (List String)) (rel : List String),
      w.canonicalize monorepo_root = some canon_root →
      IsAbs canon_root →
      (∀ bytes s, w.utf8_decode bytes = some s →
        ∀ lstr ∈ stdout_lines s, path_from_string lstr ≠ canon_root) →
      tsconfig_includes_by_package_name_exact w monorepo_root reqs = .ok result →
      pair ∈ result → rel ∈ pair.2 →
      rel ≠ [] ∧ is_proper_descendant canon_root (canon_root ++ rel)) := by
  constructor
  · intro w monorepo_root reqs result pair rel hwalk hagg hpair hrel
    obtain ⟨graph, pkgs, pkg, files, -, hres, hpkg, hest, hpe⟩ :=
      agg_mem hagg hpair
    rw [hpe] at hrel
    have hrelf : rel ∈ files := ((perm_sort_paths files).mem_iff).mp hrel
    obtain ⟨d, hshape⟩ := resolve_list_shape hres hpkg
    obtain ⟨pkg_dir, cfg, p, hpar, -, hw, -, -, hstrip⟩ :=
      estimate_files_mem hest hrelf
    rw [hshape, parent_append_tsconfig] at hpar
    cases hpar
    obtain ⟨rest, hrest, hp⟩ := hwalk _ _ _ hw
    have hps := stripLeading_eq_some hstrip
    rw [hp, List.append_assoc] at hps
    have hcan := stripLeading_append monorepo_root (d ++ rest)
    rw [hps, stripLeading_append] at hcan
    cases hcan
    refine ⟨by simp [hrest], d ++ rest, by simp [hrest], rfl⟩
  · intro w monorepo_root canon_root reqs result pair rel hcanon habs hne
      hagg hpair hrel
    obtain ⟨graph, pkgs, pkg, files, -, hres, hpkg, hext, hpe⟩ :=
      agg_mem_exact hagg hpair
    rw [hpe] at hrel
    have hrelf : rel ∈ files := ((perm_sort_paths files).mem_iff).mp hrel
    obtain ⟨cr, project_dir, child, stdout, p, hcr, -, -, hdec, hline, hmono,
      hnm, hrem⟩ := exact_files_mem hext hrelf
    rw [hcanon] at hcr
    cases hcr
    obtain ⟨lstr, hlmem, hlp⟩ := List.mem_map.mp hline
    have hpabs : IsAbs p := by
      rcases path_from_string_abs_or_no_root lstr with h1 | h1
      · exact hlp ▸ h1
      · exact absurd (mem_root_component_of_monorepo habs hmono) (hlp ▸ h1)
    obtain ⟨rel', hrem', hprel⟩ := remove_rel_of_abs habs hpabs hmono
    rw [hrem] at hrem'
    cases hrem'
    have hrelne : rel ≠ [] := by
      intro hnil
      rw [hnil, List.append_nil] at hprel
      exact hne child.stdout stdout hdec lstr hlmem (hlp.trans hprel)
    exact ⟨hrelne, rel, hrelne, rfl⟩

/-- C1 witness: a returned path of each mode's sample run, shown to be a
proper descendant of the respective root. -/
theorem C1_witness :
    ((["packages", "foo", "src", "index.ts"] : List String) ≠ [] ∧
      is_proper_descendant ["repo"]
        (["repo"] ++ ["packages", "foo", "src", "index.ts"])) ∧
    ((["packages", "bar", "src", "index.ts"] : List String) ≠ [] ∧
      is_proper_descendant ["", "repo"]
        (["", "repo"] ++ ["packages", "bar", "src", "index.ts"])) :=
  ⟨C1_root_containment.1 sample_world ["repo"]
      [["packages", "bar", "tsconfig.json"]]
      [("foo", [["packages", "foo", "src", "index.ts"],
                ["packages", "foo", "src", "lib.ts"]]),
       ("bar", [["packages", "bar", "src", "index.ts"]])]
      ("foo", [["packages", "foo", "src", "index.ts"],
               ["packages", "foo", "src", "lib.ts"]])
      ["packages", "foo", "src", "index.ts"]
      (by
        intro dir pats e he
        simp only [sample_world] at he
        by_cases h1 : dir = ["repo", "packages", "foo"]
        · rw [if_pos h1] at he
          subst h1
          rcases List.mem_cons.mp he with h | h
          · cases h
            exact ⟨["src", "lib.ts"], by decide, rfl⟩
          · rcases List.mem_cons.mp h with h | h
            · cases h
              exact ⟨["src", "index.ts"], by decide, rfl⟩
            · simp at h
        · rw [if_neg h1] at he
          by_cases h2 : dir = ["repo", "packages", "bar"]
          · rw [if_pos h2] at he
            subst h2
            rcases List.mem_cons.mp he with h | h
            · cases h
              exact ⟨["src", "index.ts"], by decide, rfl⟩
            · simp at h
          · rw [if_neg h2] at he
            simp at he)
      (by rfl) (by decide) (by decide),
   C1_root_containment.2 sample_exact_world ["repo"] ["", "repo"]
      [["packages", "bar", "tsconfig.json"]]
      [("foo", [["packages", "foo", "src", "index.ts"]]),
       ("bar", [["packages", "bar", "src", "index.ts"]])]
      ("bar", [["packages", "bar", "src", "index.ts"]])
      ["packages", "bar", "src", "index.ts"]
      (by rfl)
      ⟨["repo"], rfl, by decide⟩
      (by
        intro bytes s hdec
        simp only [sample_exact_world] at hdec
        by_cases h0 : bytes = [0]
        · rw [if_pos h0] at hdec
          cases hdec
          decide
        · rw [if_neg h0] at hdec
          by_cases h1 : bytes = [1]
          · rw [if_pos h1] at hdec
            cases hdec
            decide
          · rw [if_neg h1] at hdec
            exact Option.noConfusion hdec)
      (by rfl) (by decide) (by decide)⟩

/-- C6: in either mode, each per-package file list in the result is strictly
sorted in the path order and free of duplicates, assuming the walker
(respectively the compiler's stdout) lists each file once. -/
theorem C6_sorted_and_deduplicated :
    (∀ (w : EstimateWorld) (monorepo_root : List String)
       (reqs : List (List String))
       (result : List (String × List (List String)))
       (pair : String × List (List String)),
      (∀ dir pats, (w.walk dir pats).Nodup) →
      tsconfig_includes_by_package_name w monorepo_root reqs = .ok result →
      pair ∈ result →
      pair.2.Pairwise (fun a b => pathLt a b = true) ∧ pair.2.Nodup) ∧
    (∀ (w : ExactWorld) (monorepo_root : List String)
       (reqs : List (List String))
       (result : List (String × List (List String)))
       (pair : String × List (List String)),
      (∀ cr, w.canonicalize monorepo_root = some cr → IsAbs cr) →
      (∀ bytes s, w.utf8_decode bytes = some s →
        ((stdout_lines s).map path_from_string).Nodup) →
      tsconfig_includes_by_package_name_exact w monorepo_root reqs = .ok result →
      pair ∈ result →
      pair.2.Pairwise (fun a b => pathLt a b = true) ∧ pair.2.Nodup) := by
  constructor
  · intro w monorepo_root reqs result pair hwnd hagg hpair
    obtain ⟨graph, pkgs, pkg, files, -, hres, hpkg, hest, hpe⟩ :=
      agg_mem hagg hpair
    have hnd : files.Nodup := estimate_files_nodup hwnd hest
    have hstrict := sort_paths_strict_of_nodup hnd
    rw [hpe]
    exact ⟨hstrict, nodup_of_pairwise_pathLt hstrict⟩
  · intro w monorepo_root reqs result pair habs hlnd hagg hpair
    obtain ⟨graph, pkgs, pkg, files, -, hres, hpkg, hext, hpe⟩ :=
      agg_mem_exact hagg hpair
    have hnd : files.Nodup := exact_files_nodup habs hlnd hext
    have hstrict := sort_paths_strict_of_nodup hnd
    rw [hpe]
    exact ⟨hstrict, nodup_of_pairwise_pathLt hstrict⟩

/-- C6 witness: both sample runs yield strictly sorted, duplicate-free
per-package lists. -/
theorem C6_witness :
    (([["packages", "foo", "src", "index.ts"],
       ["packages", "foo", "src", "lib.ts"]] :
        List (List String)).Pairwise (fun a b => pathLt a b = true) ∧
      ([["packages", "foo", "src", "index.ts"],
        ["packages", "foo", "src", "lib.ts"]] :
        List (List String)).Nodup) ∧
    (([["packages", "bar", "src", "index.ts"]] :
        List (List String)).Pairwise (fun a b => pathLt a b = true) ∧
      ([["packages", "bar", "src", "index.ts"]] :
        List (List String)).Nodup) :=
  ⟨C6_sorted_and_deduplicated.1 sample_world ["repo"]
      [["packages", "bar", "tsconfig.json"]]
      [("foo", [["packages", "foo", "src", "index.ts"],
                ["packages", "foo", "src", "lib.ts"]]),
       ("bar", [["packages", "bar", "src", "index.ts"]])]
      ("foo", [["packages", "foo", "src", "index.ts"],
               ["packages", "foo", "src", "lib.ts"]])
      (by
        intro dir pats
        simp only [sample_world]
        by_cases h1 : dir = ["repo", "packages", "foo"]
        · rw [if_pos h1]
          decide
        · rw [if_neg h1]
          by_cases h2 : dir = ["repo", "packages", "bar"]
          · rw [if_pos h2]
            decide
          · rw [if_neg h2]
            exact List.nodup_nil)
      (by rfl) (by decide),
   C6_sorted_and_deduplicated.2 sample_exact_world ["repo"]
      [["packages", "bar", "tsconfig.json"]]
      [("foo", [["packages", "foo", "src", "index.ts"]]),
       ("bar", [["packages", "bar", "src", "index.ts"]])]
      ("bar", [["packages", "bar", "src", "index.ts"]])
      (by
        intro cr hcr
        simp only [sample_exact_world, if_pos rfl] at hcr
        cases hcr
        exact ⟨["repo"], rfl, by decide⟩)
      (by
        intro bytes s hdec
        simp only [sample_exact_world] at hdec
        by_cases h0 : bytes = [0]
        · rw [if_pos h0] at hdec
          cases hdec
          decide
        · rw [if_neg h0] at hdec
          by_cases h1 : bytes = [1]
          · rw [if_pos h1] at hdec
            cases hdec
            decide
          · rw [if_neg h1] at hdec
            exact Option.noConfusion hdec)
      (by rfl) (by decide)⟩

/-- C2: the extension whitelist holds exactly the base suffixes `.ts`,
`.tsx`, `.d.ts`; additionally `.js`/`.jsx` iff `allowJs`; and, for every
include pattern containing a wildcard and not ending in one, the literal
suffix after the pattern's last wildcard — all subject to the `.json` gate. -/
theorem C2_extension_whitelist (c : TypescriptConfig) (ext : String) :
    ext ∈ c.whitelisted_file_extensions ↔
      ((ext = ".ts" ∨ ext = ".tsx" ∨ ext = ".d.ts"
          ∨ (c.compiler_options.allow_js = true ∧ (ext = ".js" ∨ ext = ".jsx"))
          ∨ (∃ pat, pat ∈ c.includes ∧
              (pat.data.any fun ch => ch = '*') = true ∧
              strEndsWith pat "*" = false ∧
              (splitOnChar '*' pat).getLastD "" = ext))
        ∧ (strEndsWith ext ".json" = true →
            c.compiler_options.resolve_json_module = true)) := by
  have hgate : ∀ b : Bool,
      ((if !(strEndsWith ext ".json") then true else b) = true) ↔
        (strEndsWith ext ".json" = true → b = true) := by
    intro b
    by_cases hj : strEndsWith ext ".json" <;> simp [hj]
  unfold TypescriptConfig.whitelisted_file_extensions
  rw [List.mem_filter, hgate]
  refine and_congr ?_ Iff.rfl
  simp only [List.mem_append, List.mem_filterMap, List.mem_filter,
    List.mem_cons, List.not_mem_nil, or_false, glob_file_extension_eq_some,
    is_glob]
  by_cases hjs : c.compiler_options.allow_js
  · simp only [hjs, if_true, List.mem_cons, List.not_mem_nil, or_false,
      true_and]
    tauto
  · simp only [hjs, if_false, List.not_mem_nil, or_false, false_and]
    tauto

/-- C3: a suffix ending in `.json` survives into the whitelist only when
`resolveJsonModule` is on; concretely, with `include = ["src/**/*.json"]`
and the flag off, Estimate enumeration of a package holding `src/a.json`
and `src/b.ts` yields only the `.ts` file, and with the flag on the `.json`
file appears as well. -/
theorem C3_json_gate :
    (∀ (c : TypescriptConfig) (ext : String),
      ext ∈ c.whitelisted_file_extensions →
      strEndsWith ext ".json" = true →
      c.compiler_options.resolve_json_module = true) ∧
    estimate_files (json_world cfg_json_off) ["repo"]
        ["repo", "pkg", "tsconfig.json"] =
      .ok [["pkg", "src", "b.ts"]] ∧
    estimate_files (json_world cfg_json_on) ["repo"]
        ["repo", "pkg", "tsconfig.json"] =
      .ok [["pkg", "src", "a.json"], ["pkg", "src", "b.ts"]] := by
  refine ⟨?_, by rfl, by rfl⟩
  intro c ext hmem hjson
  have h := (C2_extension_whitelist c ext).mp hmem
  exact h.2 hjson

/-- C3 witness: the gating implication applied at the concrete
configuration that whitelists `.json`. -/
theorem C3_witness :
    (".json" ∈ cfg_json_on.whitelisted_file_extensions) ∧
    cfg_json_on.compiler_options.resolve_json_module = true :=
  ⟨by decide, C3_json_gate.1 cfg_json_on ".json" (by decide) (by decide)⟩

/-- C4: the resolved package set of the dependency-closure stage always
contains the requested package itself (whatever its internal dependencies
are), in both Estimate and Exact modes. -/
theorem C4_closure_inclusive :
    (∀ (w : EstimateWorld) (graph : ManifestGraph)
       (monorepo_root req dir d : List String) (reqs : List (List String))
       (s : Finset TypescriptPackage) (name : String) (pm : PackageManifestM),
      req ∈ reqs →
      resolve_packages w graph monorepo_root reqs = .ok s →
      parent req = some dir →
      w.read_manifest_name (monorepo_root ++ (dir ++ ["package.json"])) = .ok name →
      graph.by_name name = some pm →
      parent pm.path = some d →
      (⟨pm.name, d ++ ["tsconfig.json"]⟩ : TypescriptPackage) ∈ s) ∧
    (∀ (w : ExactWorld) (graph : ManifestGraph)
       (monorepo_root req dir d : List String) (reqs : List (List String))
       (s : Finset TypescriptPackage) (name : String) (pm : PackageManifestM),
      req ∈ reqs →
      resolve_packages_exact w graph monorepo_root reqs = .ok s →
      parent (monorepo_root ++ req) = some dir →
      w.read_manifest_name (dir ++ ["package.json"]) = .ok name →
      graph.by_name name = some pm →
      parent pm.path = some d →
      (⟨pm.name, d ++ ["tsconfig.json"]⟩ : TypescriptPackage) ∈ s) := by
  constructor
  · intro w graph monorepo_root req dir d reqs s name pm hreq hres hpar hname hpm hd
    unfold resolve_packages at hres
    cases hrl : resolve_packages_list w graph monorepo_root reqs with
    | ok pkgs =>
      rw [hrl] at hres
      cases hres
      obtain ⟨l, hper, hsub⟩ := resolve_list_ok_per_ok hrl hreq
      have hmem := per_request_ok_mem hper hpar hname hpm hd
      rw [List.mem_toFinset]
      exact hsub _ hmem
    | error e =>
      rw [hrl] at hres
      exact Outcome.noConfusion hres
    | crash m =>
      rw [hrl] at hres
      exact Outcome.noConfusion hres
  · intro w graph monorepo_root req dir d reqs s name pm hreq hres hpar hname hpm hd
    unfold resolve_packages_exact at hres
    cases hrl : resolve_packages_list_exact w graph monorepo_root reqs with
    | ok pkgs =>
      rw [hrl] at hres
      cases hres
      obtain ⟨l, hper, hsub⟩ := resolve_list_exact_ok_per_ok hrl hreq
      have hmem := per_request_exact_ok_mem hper hpar hname hpm hd
      rw [List.mem_toFinset]
      exact hsub _ hmem
    | error e =>
      rw [hrl] at hres
      exact Outcome.noConfusion hres
    | crash m =>
      rw [hrl] at hres
      exact Outcome.noConfusion hres

/-- C4 witness: requesting `foo` (which has no internal dependencies) puts
`foo` itself in the resolved set, in both modes. -/
theorem C4_witness :
    (⟨"foo", ["packages", "foo", "tsconfig.json"]⟩ : TypescriptPackage) ∈
      ({⟨"foo", ["packages", "foo", "tsconfig.json"]⟩} :
        Finset TypescriptPackage) ∧
    (⟨"foo", ["packages", "foo", "tsconfig.json"]⟩ : TypescriptPackage) ∈
      ({⟨"foo", ["packages", "foo", "tsconfig.json"]⟩} :
        Finset TypescriptPackage) :=
  ⟨C4_closure_inclusive.1 sample_world sample_graph ["repo"]
      ["packages", "foo", "tsconfig.json"] ["packages", "foo"]
      ["packages", "foo"] [["packages", "foo", "tsconfig.json"]]
      {⟨"foo", ["packages", "foo", "tsconfig.json"]⟩} "foo" sample_pm_foo
      (by decide) (by rfl) (by rfl) (by rfl) (by rfl) (by rfl),
   C4_closure_inclusive.2 sample_exact_world sample_graph ["repo"]
      ["packages", "foo", "tsconfig.json"] ["repo", "packages", "foo"]
      ["packages", "foo"] [["packages", "foo", "tsconfig.json"]]
      {⟨"foo", ["packages", "foo", "tsconfig.json"]⟩} "foo" sample_pm_foo
      (by decide) (by rfl) (by rfl) (by rfl) (by rfl) (by rfl)⟩

/-- C5: resolving two requests in one call yields exactly the union of the
two singleton resolutions; the union is order-independent, repeating a
request adds nothing, and the resolved list is duplicate-free. -/
theorem C5_closure_union
    (w : EstimateWorld) (graph : ManifestGraph) (monorepo_root a b : List String)
    (s1 s2 : Finset TypescriptPackage)
    (h1 : resolve_packages w graph monorepo_root [a] = .ok s1)
    (h2 : resolve_packages w graph monorepo_root [b] = .ok s2) :
    resolve_packages w graph monorepo_root [a, b] = .ok (s1 ∪ s2) ∧
    resolve_packages w graph monorepo_root [b, a] = .ok (s1 ∪ s2) ∧
    resolve_packages w graph monorepo_root [a, a] = .ok s1 ∧
    (∀ reqs pkgs, resolve_packages_list w graph monorepo_root reqs = .ok pkgs →
      pkgs.Nodup) := by
  obtain ⟨la, hpa, hsa⟩ := resolve_single h1
  obtain ⟨lb, hpb, hsb⟩ := resolve_single h2
  subst hsa
  subst hsb
  refine ⟨resolve_pair hpa hpb, ?_, ?_, ?_⟩
  · rw [resolve_pair hpb hpa, Finset.union_comm]
  · rw [resolve_pair hpa hpa, Finset.union_self]
  · intro reqs pkgs hres
    unfold resolve_packages_list at hres
    cases hc : collectOutcomes (reqs.map (per_request w graph monorepo_root)) with
    | ok ls =>
      rw [hc] at hres
      cases hres
      exact nodup_dedupFirst _
    | error e =>
      rw [hc] at hres
      exact Outcome.noConfusion hres
    | crash m =>
      rw [hc] at hres
      exact Outcome.noConfusion hres

/-- C5 witness: resolving `foo` and `bar` separately and together over the
sample monorepo. -/
theorem C5_witness :
    resolve_packages sample_world sample_graph ["repo"]
        [["packages", "foo", "tsconfig.json"], ["packages", "bar", "tsconfig.json"]] =
      .ok ({⟨"foo", ["packages", "foo", "tsconfig.json"]⟩} ∪
        {⟨"foo", ["packages", "foo", "tsconfig.json"]⟩,
         ⟨"bar", ["packages", "bar", "tsconfig.json"]⟩}) :=
  (C5_closure_union sample_world sample_graph ["repo"]
    ["packages", "foo", "tsconfig.json"] ["packages", "bar", "tsconfig.json"]
    {⟨"foo", ["packages", "foo", "tsconfig.json"]⟩}
    {⟨"foo", ["packages", "foo", "tsconfig.json"]⟩,
     ⟨"bar", ["packages", "bar", "tsconfig.json"]⟩}
    (by rfl) (by rfl)).1

/-- C7 witness: a compiler exiting with status 2 at a concrete input. -/
theorem C7_witness :
    tsconfig_includes_exact failing_exact_world ["repo"]
        ["packages", "foo", "tsconfig.json"] =
      .error (.typescriptCompiler
        (tsc_command_string ["packages", "foo", "tsconfig.json"])
        sample_stderr) :=
  (C7_compiler_invocation_error failing_exact_world ["repo"]
    ["packages", "foo", "tsconfig.json"] ["", "repo"]
    ["", "repo", "packages", "foo"] ⟨some 2, [111, 117, 116], sample_stderr⟩
    (by rfl) (by rfl) (by rfl) (by decide)).1

end TsconfigIncludes
